import Mathlib

/-
Verification of `tethne/analyze/collection.py`.

The module is embedded shallowly:

* Python dictionaries become association lists (`List (κ × β)`) together
  with the lookup `dget` (first entry wins, as in a dict whose keys are
  unique) and the in-place update `dset` (overwrite the entry if the key
  is present, append otherwise).
* A networkx graph is a structure holding its adjacency dictionary
  (`G[n]` / `G.nodes()`) and its per-node attribute dictionaries
  (`G.nodes(data=True)` / `nx.set_node_attributes`).
* Python floats become `ℚ`; an attribute value that `float` cannot coerce
  is the constructor `Val.nonnum`.
* Python exceptions become the `PErr` error type threaded through
  `Except`; a `try`/`except KeyError` handler catches `PErr.keyError`
  only, every other error propagates.
-/

set_option maxHeartbeats 1000000

namespace Tethne

/-- Python dict lookup `d[k]` on an association list: the first entry
whose key is `k` (a real dict has unique keys, and all dicts built in
this development are built with `dset`, which preserves uniqueness). -/
def dget {κ β : Type} [DecidableEq κ] : List (κ × β) → κ → Option β
  | [], _ => none
  | p :: t, k => if p.1 = k then some p.2 else dget t k

/-- Python dict assignment `d[k] = v`: overwrite the entry for `k` if it
is present, append a new entry otherwise. -/
def dset {κ β : Type} [DecidableEq κ] : List (κ × β) → κ → β → List (κ × β)
  | [], k, v => [(k, v)]
  | p :: t, k, v => if p.1 = k then (k, v) :: t else p :: dset t k v

/-- A node-attribute value: either a value that `float` coerces to a
number, or one on which `float` raises. -/
inductive Val where
  | num (q : ℚ)
  | nonnum
  deriving DecidableEq

/-- The Python exceptions this module can surface. -/
inductive PErr where
  | keyError
  | valueError
  | indexError
  deriving DecidableEq

/-- Python `float(v)` on an attribute value: returns the number, or
raises `ValueError`/`TypeError` (collapsed into `PErr.valueError`) when
the value is not numerically interpretable. -/
def pyFloat : Val → Except PErr ℚ
  | .num q => .ok q
  | .nonnum => .error .valueError

/-- A networkx graph: adjacency dict (`G[n]` looks a node up in it, and
`G.nodes()` lists its keys) plus the per-node attribute dicts
(`G.nodes(data=True)`). -/
structure Graph (α : Type) where
  adj : List (α × List α)
  nodeAttrs : List (α × List (String × Val))
  deriving DecidableEq

/-- Python `G.nodes()`: the keys of the adjacency dict. -/
def Graph.nodes {α : Type} (g : Graph α) : List α :=
  g.adj.map (·.1)

/-- The value of attribute `name` on node `n`, read from the per-node
attribute dict (`G.node[n][name]`). -/
def Graph.attrOf {α : Type} [DecidableEq α] (g : Graph α) (n : α) (name : String) : Option Val :=
  (dget g.nodeAttrs n).bind (fun d => dget d name)

/-- External collaborator (networkx): `nx.set_node_attributes(G, name,
values)` writes `values[n]` under key `name` into each listed node's
attribute dict.  Nodes that are not in the graph's attribute store are
skipped (the callers in this module only pass node keys of the graph). -/
def set_node_attributes {α : Type} [DecidableEq α] (g : Graph α) (name : String)
    (values : List (α × ℚ)) : Graph α :=
  { g with nodeAttrs := values.foldl (fun na p =>
      match dget na p.1 with
      | some d => dset na p.1 (dset d name (Val.num p.2))
      | none => na) g.nodeAttrs }

/-- A `GraphCollection`: the ordered dict `C.graphs` mapping slice index
(e.g. a year) to a graph, in the collection's natural iteration order. -/
structure Collection (α : Type) where
  graphs : List (ℤ × Graph α)
  deriving DecidableEq

/-- Modelled from the spec: `GraphCollection.nodes()` is not under
`src/`; per §3 the collection "exposes the union of node identifiers
across all constituent graphs". -/
def Collection.nodes {α : Type} [DecidableEq α] (C : Collection α) : List α :=
  (C.graphs.map (fun p => p.2.nodes)).flatten.dedup

/-- An entry of the external namespace `nx.__dict__`: either a plain
function (`types.FunctionType`) taking a graph to a per-element result
dict, or anything else (a class, a module, a constant, ...). -/
inductive NxEntry (α : Type) where
  | func (f : Graph α → List (α × ℚ))
  | notFunc

/-- The body of `algorithm`'s loop over `C.graphs.iteritems()`: apply
the resolved function to each graph, merge the per-graph result into the
element-major accumulator (`results[elem][k] = value`, with the
`except KeyError` branch creating `results[elem] = {k: value}`), and
write the raw result back onto the graph as a node attribute named after
the method. -/
def algLoop {α : Type} [DecidableEq α] (f : Graph α → List (α × ℚ)) (method : String) :
    List (ℤ × Graph α) → List (α × List (ℤ × ℚ)) → List (ℤ × Graph α) →
    List (α × List (ℤ × ℚ)) × List (ℤ × Graph α)
  | [], results, done => (results, done)
  | (k, g) :: rest, results, done =>
    let r := f g
    let results' := r.foldl (fun res p =>
      match dget res p.1 with
      | some d => dset res p.1 (dset d k p.2)
      | none => dset res p.1 [(k, p.2)]) results
    algLoop f method rest results' (done ++ [(k, set_node_attributes g method r)])

/-- Source `tethne.analyze.collection.algorithm(C, method, **kwargs)`: resolve
`method` in `nx.__dict__` (raising `ValueError("No such name in
networkx.")` when absent and `ValueError("No such method in networkx.")`
when present but not a plain function), then run `algLoop`.  The
(kwargs-applied) namespace is a parameter `ns`. -/
def algorithm {α : Type} [DecidableEq α] (ns : List (String × NxEntry α)) (C : Collection α)
    (method : String) : Except String (List (α × List (ℤ × ℚ)) × Collection α) :=
  match dget ns method with
  | none => .error "No such name in networkx."
  | some .notFunc => .error "No such method in networkx."
  | some (.func f) =>
    let out := algLoop f method C.graphs [] []
    .ok (out.1, ⟨out.2⟩)

/-- An entry of the external namespace `nx.connected.__dict__`: a plain
function from a graph to a (scalar or structured) value, or anything
else. -/
inductive ConnEntry (α β : Type) where
  | func (f : Graph α → β)
  | notFunc

/-- Source `tethne.analyze.collection.connected(C, method, **kwargs)`: resolve
`method` in `nx.connected.__dict__` (distinct `ValueError`s for "name
absent" and "name present but not a function"), then store each graph's
raw return value flat under its graph index (`results[k] = f(G)`).  No
attribute is written onto any graph. -/
def connected {α β : Type} [DecidableEq α] (ns : List (String × ConnEntry α β))
    (C : Collection α) (method : String) : Except String (List (ℤ × β) × Collection α) :=
  match dget ns method with
  | none => .error "No such name in networkx.connected."
  | some .notFunc => .error "No such method in networkx.connected."
  | some (.func f) =>
    .ok (C.graphs.foldl (fun res p => dset res p.1 (f p.2)) [], C)

/-- The three-way branch of `delta`'s inner loop, on the tracked
`last[n]` and the freshly coerced `curr`:

    if last[n] is not None and curr is not None: delta = curr - last[n]; last[n] = curr
    elif last[n] is None and curr is not None:   delta = curr;           last[n] = curr
    else:                                        delta = 0.

returning the recorded delta together with the new `last[n]`. -/
def deltaBranch (lastn curr : Option ℚ) : ℚ × Option ℚ :=
  if lastn ≠ none ∧ curr ≠ none then (curr.getD 0 - lastn.getD 0, curr)
  else if lastn = none ∧ curr ≠ none then (curr.getD 0, curr)
  else (0, lastn)

/-- The `try` body of `delta`'s inner loop for one node: look the node
up in `asdict` (KeyError when absent), look the attribute up in the
node's dict (KeyError when absent), coerce with `float` (ValueError on a
non-numeric value), then take `deltaBranch`. -/
def deltaBody {α : Type} [DecidableEq α] (asdict : List (α × List (String × Val)))
    (attr : String) (n : α) (lastn : Option ℚ) : Except PErr (ℚ × Option ℚ) :=
  match dget asdict n with
  | none => .error .keyError
  | some nd =>
    match dget nd attr with
    | none => .error .keyError
    | some v =>
      match pyFloat v with
      | .error e => .error e
      | .ok curr => .ok (deltaBranch lastn (some curr))

/-- The `delta` loop over `all_nodes` for one slice: a KeyError from the
body is caught (`except KeyError: pass`), every other error propagates;
on success the delta is recorded in the slice's dict and `last[n]` is
updated. -/
def deltaSlice {α : Type} [DecidableEq α] (attr : String)
    (asdict : List (α × List (String × Val))) :
    List α → List (α × Option ℚ) → List (α × ℚ) →
    Except PErr (List (α × ℚ) × List (α × Option ℚ))
  | [], last, dk => .ok (dk, last)
  | n :: ns, last, dk =>
    match deltaBody asdict attr n ((dget last n).getD none) with
    | .error .keyError => deltaSlice attr asdict ns last dk
    | .error e => .error e
    | .ok (d, l') => deltaSlice attr asdict ns (dset last n l') (dset dk n d)

/-- The `delta` loop over the sorted keys: fetch the slice's graph
(`G[k]`), build `asdict` from `graph.nodes(data=True)`, run the node
loop, then bulk-write the slice's deltas back onto the slice's graph
under `attr + "_delta"`. -/
def deltaKeys {α : Type} [DecidableEq α] (attr : String) (allNodes : List α) :
    List ℤ → Collection α → List (α × Option ℚ) → List (ℤ × List (α × ℚ)) →
    Except PErr (List (ℤ × List (α × ℚ)) × Collection α)
  | [], C, _, deltas => .ok (deltas, C)
  | k :: ks, C, last, deltas =>
    match dget C.graphs k with
    | none => .error .keyError
    | some g =>
      let asdict := g.nodeAttrs
      match deltaSlice attr asdict allNodes last ((dget deltas k).getD []) with
      | .error e => .error e
      | .ok (dk, last') =>
        deltaKeys attr allNodes ks
          ⟨dset C.graphs k (set_node_attributes g (attr ++ "_delta") dk)⟩
          last' (dset deltas k dk)

/-- Source `tethne.analyze.collection.delta(G, attribute)`: sort the collection
keys ascending, initialise `deltas = {k: {} for k in keys}` and
`last = {n: None for n in all_nodes}`, and run the key loop.  Returns
the nested delta mapping together with the mutated collection. -/
def delta {α : Type} [DecidableEq α] (C : Collection α) (attr : String) :
    Except PErr (List (ℤ × List (α × ℚ)) × Collection α) :=
  let keys := (C.graphs.map (·.1)).insertionSort (· ≤ ·)
  let allNodes := C.nodes
  let deltas0 := keys.map (fun k => (k, ([] : List (α × ℚ))))
  let last0 := allNodes.map (fun n => (n, (none : Option ℚ)))
  deltaKeys attr allNodes keys C last0 deltas0

/-- Specification-side reading of a slice's attribute value for a node:
the numeric value when the node is present, carries the attribute, and
the value is numeric, `none` otherwise. -/
def aval {α : Type} [DecidableEq α] (asdict : List (α × List (String × Val)))
    (attr : String) (n : α) : Option ℚ :=
  match (dget asdict n).bind (fun d => dget d attr) with
  | some (Val.num q) => some q
  | _ => none

/-- Specification-side reading of node `n`'s numeric attribute value in
slice `k` of the collection. -/
def attrQ {α : Type} [DecidableEq α] (C : Collection α) (attr : String) (k : ℤ) (n : α) :
    Option ℚ :=
  match dget C.graphs k with
  | some g => aval g.nodeAttrs attr n
  | none => none

/-- The ascending key order in which `delta` iterates the slices. -/
def sortedKeys {α : Type} (C : Collection α) : List ℤ :=
  (C.graphs.map (·.1)).insertionSort (· ≤ ·)

/-- The last observed value along a key list, walking the keys in
order: each `some` produced by `f` replaces the running value, starting
from the baseline `L`. -/
def lastObs (f : ℤ → Option ℚ) : List ℤ → Option ℚ → Option ℚ
  | [], L => L
  | k :: ks, L =>
    lastObs f ks (match f k with
      | some q => some q
      | none => L)

/-- The value of node `n`'s attribute last observed strictly before
slice `k` in `delta`'s ascending iteration order (`none` when the slice
`k` is the first time the attribute is observed for `n`). -/
def lastBefore {α : Type} [DecidableEq α] (C : Collection α) (attr : String) (n : α) (k : ℤ) :
    Option ℚ :=
  lastObs (fun j => attrQ C attr j n) ((sortedKeys C).takeWhile (fun j => j ≠ k)) none

/-- Specification-side reading of the per-node new-edge count of one
step: `float(len(set(G[n]) - old))` when the previous slice's neighbor
set `old` is non-empty, else `0.` -/
def newEdgeCount {α : Type} [DecidableEq α] (g : Graph α) (n : α) (old : List α) : ℚ :=
  if 0 < old.dedup.length then
    ((((dget g.adj n).getD []).dedup.filter (fun x => x ∉ old.dedup)).length : ℚ)
  else 0

/-- The body of the `new_edges` loop of `attachment_probability` for
one node of the current slice: look the node up in the previous slice's
adjacency (`except KeyError: pass` skips nodes absent there); a node
with at least one previous neighbor gets `float(len(set(G[n]) -
set(G_[n])))`, a node with zero previous neighbors gets `0.`. -/
def neStep {α : Type} [DecidableEq α] (gprev g : Graph α) (ne : List (α × ℚ)) (n : α) :
    List (α × ℚ) :=
  match dget gprev.adj n with
  | none => ne
  | some old =>
    if 0 < old.dedup.length then
      dset ne n ((((dget g.adj n).getD []).dedup.filter (fun x => x ∉ old.dedup)).length : ℚ)
    else dset ne n 0

/-- The `new_edges` dict of one step of `attachment_probability`:
`neStep` folded over the current slice's nodes. -/
def newEdgesOf {α : Type} [DecidableEq α] (gprev g : Graph α) : List (α × ℚ) :=
  g.nodes.foldl (neStep gprev g) []

/-- One step's probability dict `probs[k_]` in `attachment_probability`:
default every node of the previous slice to `0.`; when the total count
`N` of new edges is positive, overwrite with `new_edges[n]/N` for every
collection node that has a recorded new-edge count. -/
def stepProbs {α : Type} [DecidableEq α] (cnodes : List α) (gprev g : Graph α) :
    List (α × ℚ) :=
  let ne := newEdgesOf gprev g
  let N : ℚ := (ne.map (·.2)).sum
  let base := gprev.nodes.foldl (fun d n => dset d n (0 : ℚ)) []
  if 0 < N then
    cnodes.foldl (fun d n =>
      match dget ne n with
      | some v => dset d n (v / N)
      | none => d) base
  else base

/-- The `attachment_probability` loop over `C.graphs.iteritems()`,
tracking the previous slice `(k_, G_)`: on every step after the first,
compute the previous slice's probability dict, record it under the
previous index, and write it onto the previous slice's graph (the
source's `if probs[k_] is not None` guard is vacuous: the dict just
built is never `None`). -/
def apLoop {α : Type} [DecidableEq α] (cnodes : List α) :
    List (ℤ × Graph α) → Option (ℤ × Graph α) → List (ℤ × List (α × ℚ)) →
    List (ℤ × Graph α) → List (ℤ × List (α × ℚ)) × List (ℤ × Graph α)
  | [], _, probs, done => (probs, done)
  | (k, g) :: rest, prev, probs, done =>
    match prev with
    | none => apLoop cnodes rest (some (k, g)) probs (done ++ [(k, g)])
    | some (k_, g_) =>
      let pk := stepProbs cnodes g_ g
      apLoop cnodes rest (some (k, g)) (dset probs k_ pk)
        (dset done k_ (set_node_attributes g_ "attachment_probability" pk) ++ [(k, g)])

/-- Source `tethne.analyze.collection.attachment_probability(C)`: run the slice
loop, then give the final slice (`C.graphs.keys()[-1]`, an `IndexError`
on an empty collection) an all-zero `attachment_probability` attribute
over its own nodes.  Returns the probability mapping together with the
mutated collection. -/
def attachment_probability {α : Type} [DecidableEq α] (C : Collection α) :
    Except PErr (List (ℤ × List (α × ℚ)) × Collection α) :=
  let out := apLoop C.nodes C.graphs none [] []
  match (C.graphs.map (·.1)).getLast? with
  | none => .error .indexError
  | some key =>
    match dget out.2 key with
    | none => .error .keyError
    | some glast =>
      let zprobs := glast.nodes.foldl (fun d n => dset d n (0 : ℚ)) []
      .ok (out.1, ⟨dset out.2 key (set_node_attributes glast "attachment_probability" zprobs)⟩)

/-! ### Concrete data used by witnesses and counterexamples -/

/-- A degree-like per-node networkx function used as a concrete known
algorithm in witnesses. -/
def exDegF : Graph ℕ → List (ℕ × ℚ) :=
  fun g => g.adj.map (fun p => (p.1, (p.2.length : ℚ)))

/-- Slice-1 witness graph: the path 0 – 1. -/
def exG1 : Graph ℕ := ⟨[(0, [1]), (1, [0])], [(0, []), (1, [])]⟩

/-- Slice-2 witness graph: the star 1 – 0 – 2. -/
def exG2 : Graph ℕ := ⟨[(0, [1, 2]), (1, [0]), (2, [0])], [(0, []), (1, []), (2, [])]⟩

/-- A two-slice witness collection. -/
def exC : Collection ℕ := ⟨[(1999, exG1), (2000, exG2)]⟩

/-- Delta-witness slice 2000: attribute x = {0: 1, 1: 2, 2: 3}. -/
def exDG0 : Graph ℕ :=
  ⟨[(0, [1]), (1, [0, 2]), (2, [1])],
   [(0, [("x", Val.num 1)]), (1, [("x", Val.num 2)]), (2, [("x", Val.num 3)])]⟩

/-- Delta-witness slice 2001: attribute x = {0: 2, 1: 2, 2: 5}. -/
def exDG1 : Graph ℕ :=
  ⟨[(0, [1]), (1, [0, 2]), (2, [1])],
   [(0, [("x", Val.num 2)]), (1, [("x", Val.num 2)]), (2, [("x", Val.num 5)])]⟩

/-- The delta-witness collection of the spec's concrete scenario. -/
def exDC : Collection ℕ := ⟨[(2000, exDG0), (2001, exDG1)]⟩

/-- Gap-witness slice 2000: both nodes carry x. -/
def exDH0 : Graph ℕ :=
  ⟨[(0, [1]), (1, [0])], [(0, [("x", Val.num 1)]), (1, [("x", Val.num 10)])]⟩

/-- Gap-witness slice 2001: node 1 is present but misses x. -/
def exDH1 : Graph ℕ :=
  ⟨[(0, [1]), (1, [0])], [(0, [("x", Val.num 2)]), (1, [])]⟩

/-- Gap-witness slice 2002: node 1 carries x again. -/
def exDH2 : Graph ℕ :=
  ⟨[(0, [1]), (1, [0])], [(0, [("x", Val.num 4)]), (1, [("x", Val.num 13)])]⟩

/-- A three-slice collection in which node 1's attribute has a gap at
the middle slice. -/
def exDC7 : Collection ℕ := ⟨[(2000, exDH0), (2001, exDH1), (2002, exDH2)]⟩

/-- Attachment-probability slice 1: the path 0 – 2 – 1. -/
def exP1 : Graph ℕ := ⟨[(0, [2]), (1, [2]), (2, [0, 1])], [(0, []), (1, []), (2, [])]⟩

/-- Attachment-probability slice 2: the triangle 0 – 1 – 2 (the single
new edge 0 – 1 joins two nodes that both had neighbors in slice 1). -/
def exP2 : Graph ℕ := ⟨[(0, [2, 1]), (1, [2, 0]), (2, [0, 1])], [(0, []), (1, []), (2, [])]⟩

/-- The two-slice collection in which slice 2 adds exactly one new edge
(0 – 1) at node 0. -/
def exPC : Collection ℕ := ⟨[(1, exP1), (2, exP2)]⟩

/-- Witness slice 2 for attachment probability: the single new edge
0 – 3 attaches node 0 to the brand-new node 3. -/
def exQ2 : Graph ℕ :=
  ⟨[(0, [2, 3]), (1, [2]), (2, [0, 1]), (3, [0])], [(0, []), (1, []), (2, []), (3, [])]⟩

/-- The two-slice witness collection for attachment probability. -/
def exQC : Collection ℕ := ⟨[(1, exP1), (2, exQ2)]⟩

/-- A slice whose node 1 carries a non-numeric value for x. -/
def exGBad : Graph ℕ :=
  ⟨[(0, [1]), (1, [0])], [(0, [("x", Val.num 1)]), (1, [("x", Val.nonnum)])]⟩

/-- A collection containing a value on which float coercion fails. -/
def exCBad : Collection ℕ := ⟨[(2000, exGBad)]⟩

/-! ### Association-list (Python dict) lemmas -/

theorem dget_nil {κ β : Type} [DecidableEq κ] (k : κ) : dget ([] : List (κ × β)) k = none := rfl

theorem dget_cons {κ β : Type} [DecidableEq κ] (p : κ × β) (t : List (κ × β)) (k : κ) :
    dget (p :: t) k = if p.1 = k then some p.2 else dget t k := rfl

theorem dget_cons_ne {κ β : Type} [DecidableEq κ] (p : κ × β) (t : List (κ × β)) (k : κ)
    (h : p.1 ≠ k) : dget (p :: t) k = dget t k := by
  rw [dget_cons, if_neg h]

theorem dget_dset_self {κ β : Type} [DecidableEq κ] (l : List (κ × β)) (k : κ) (v : β) :
    dget (dset l k v) k = some v := by
  induction l with
  | nil => simp [dset, dget]
  | cons p t ih =>
    by_cases h : p.1 = k
    · simp [dset, h, dget]
    · simp [dset, h, dget, ih]

theorem dget_dset_ne {κ β : Type} [DecidableEq κ] (l : List (κ × β)) (k k' : κ) (v : β)
    (h : k' ≠ k) : dget (dset l k v) k' = dget l k' := by
  induction l with
  | nil => simp [dset, dget, Ne.symm h]
  | cons p t ih =>
    by_cases hp : p.1 = k
    · simp [dset, hp, dget, Ne.symm h, hp ▸ Ne.symm h]
    · simp only [dset, if_neg hp]
      by_cases hp' : p.1 = k'
      · simp [dget, hp']
      · simp [dget, hp', ih]

theorem mem_dset {κ β : Type} [DecidableEq κ] (l : List (κ × β)) (k : κ) (v : β) (q : κ × β)
    (hq : q ∈ dset l k v) : q = (k, v) ∨ q ∈ l := by
  induction l with
  | nil => simpa [dset] using hq
  | cons p t ih =>
    by_cases hp : p.1 = k
    · simp only [dset, if_pos hp, List.mem_cons] at hq
      rcases hq with h | h
      · exact Or.inl h
      · exact Or.inr (List.mem_cons_of_mem _ h)
    · simp only [dset, if_neg hp, List.mem_cons] at hq
      rcases hq with h | h
      · exact Or.inr (h ▸ List.mem_cons_self _ _)
      · rcases ih h with h' | h'
        · exact Or.inl h'
        · exact Or.inr (List.mem_cons_of_mem _ h')

theorem keys_dset {κ β : Type} [DecidableEq κ] (l : List (κ × β)) (k : κ) (v : β) :
    (dset l k v).map (·.1) =
      if k ∈ l.map (·.1) then l.map (·.1) else l.map (·.1) ++ [k] := by
  induction l with
  | nil => simp [dset]
  | cons p t ih =>
    by_cases hp : p.1 = k
    · simp [dset, hp]
    · by_cases hk : k ∈ t.map (·.1)
      · simp [dset, hp, ih, hk, Ne.symm hp]
      · simp [dset, hp, ih, hk, Ne.symm hp]

theorem mem_keys_dset {κ β : Type} [DecidableEq κ] (l : List (κ × β)) (k : κ) (v : β) (a : κ) :
    a ∈ (dset l k v).map (·.1) ↔ a = k ∨ a ∈ l.map (·.1) := by
  rw [keys_dset]
  by_cases hk : k ∈ l.map (·.1)
  · simp only [if_pos hk]
    constructor
    · exact Or.inr
    · rintro (rfl | h)
      · exact hk
      · exact h
  · simp only [if_neg hk, List.mem_append, List.mem_singleton]
    tauto

theorem nodup_keys_dset {κ β : Type} [DecidableEq κ] (l : List (κ × β)) (k : κ) (v : β)
    (h : (l.map (·.1)).Nodup) : ((dset l k v).map (·.1)).Nodup := by
  induction l with
  | nil => simp [dset]
  | cons p t ih =>
    simp only [List.map_cons, List.nodup_cons] at h
    by_cases hp : p.1 = k
    · simp only [dset, if_pos hp, List.map_cons, List.nodup_cons]
      exact ⟨hp ▸ h.1, h.2⟩
    · simp only [dset, if_neg hp, List.map_cons, List.nodup_cons]
      refine ⟨fun hmem => ?_, ih h.2⟩
      rcases (mem_keys_dset t k v p.1).mp hmem with h' | h'
      · exact hp h'
      · exact h.1 h'

theorem dget_mem {κ β : Type} [DecidableEq κ] (l : List (κ × β)) (k : κ) (v : β)
    (h : dget l k = some v) : (k, v) ∈ l := by
  induction l with
  | nil => simp [dget] at h
  | cons p t ih =>
    obtain ⟨a, b⟩ := p
    by_cases hp : a = k
    · simp only [dget, if_pos hp, Option.some_inj] at h
      subst hp
      subst h
      exact List.mem_cons_self _ _
    · simp only [dget, if_neg hp] at h
      exact List.mem_cons_of_mem _ (ih h)

theorem mem_dget_nodup {κ β : Type} [DecidableEq κ] (l : List (κ × β)) (k : κ) (v : β)
    (hn : (l.map (·.1)).Nodup) (h : (k, v) ∈ l) : dget l k = some v := by
  induction l with
  | nil => simp at h
  | cons p t ih =>
    simp only [List.map_cons, List.nodup_cons] at hn
    rcases List.mem_cons.mp h with h' | h'
    · simp [dget, ← h']
    · have hp : p.1 ≠ k := by
        intro hk
        exact hn.1 (hk ▸ (List.mem_map.mpr ⟨(k, v), h', rfl⟩))
      simp [dget, hp, ih hn.2 h']

theorem dget_eq_none_iff {κ β : Type} [DecidableEq κ] (l : List (κ × β)) (k : κ) :
    dget l k = none ↔ k ∉ l.map (·.1) := by
  induction l with
  | nil => simp [dget]
  | cons p t ih =>
    by_cases hp : p.1 = k
    · simp [dget, hp]
    · simp [dget, hp, ih, Ne.symm hp]

theorem dget_isSome_iff {κ β : Type} [DecidableEq κ] (l : List (κ × β)) (k : κ) :
    (dget l k).isSome = true ↔ k ∈ l.map (·.1) := by
  constructor
  · intro h
    by_contra hmem
    rw [← dget_eq_none_iff] at hmem
    rw [hmem] at h
    simp at h
  · intro h
    cases hd : dget l k with
    | none => exact absurd h ((dget_eq_none_iff l k).mp hd)
    | some v => simp

theorem dget_map_pair {κ β : Type} [DecidableEq κ] (l : List κ) (c : β) (x : κ) :
    dget (l.map (fun a => (a, c))) x = if x ∈ l then some c else none := by
  induction l with
  | nil => simp [dget]
  | cons a t ih =>
    by_cases ha : a = x
    · simp [dget, ha]
    · simp [dget, ha, ih, Ne.symm ha]

theorem dget_map_snd {κ β γ : Type} [DecidableEq κ] (l : List (κ × β)) (h : β → γ) (k : κ) :
    dget (l.map (fun p => (p.1, h p.2))) k = (dget l k).map h := by
  induction l with
  | nil => simp [dget]
  | cons p t ih =>
    by_cases hp : p.1 = k
    · simp [dget, hp]
    · simp [dget, hp, ih]

/-! ### Dispatchers: error conditions (C2) and the connectivity dispatcher (C8) -/

/-- C2 (amended): both dispatchers distinguish "name absent from the
namespace" and "name present but not a plain function" as two distinct
error conditions, each returned before any graph in the collection is
processed (the error is the same for every collection), each with a
fixed descriptive message identifying the namespace and failure kind;
the message does not include the offending method string. -/
theorem dispatcher_error_conditions {α β : Type} [DecidableEq α]
    (ns₁ : List (String × NxEntry α)) (ns₂ : List (String × ConnEntry α β)) (method : String) :
    (dget ns₁ method = none →
      ∀ C : Collection α, algorithm ns₁ C method = .error "No such name in networkx.")
    ∧ (dget ns₁ method = some .notFunc →
      ∀ C : Collection α, algorithm ns₁ C method = .error "No such method in networkx.")
    ∧ (dget ns₂ method = none →
      ∀ C : Collection α, connected ns₂ C method = .error "No such name in networkx.connected.")
    ∧ (dget ns₂ method = some .notFunc →
      ∀ C : Collection α, connected ns₂ C method = .error "No such method in networkx.connected.")
    ∧ "No such name in networkx." ≠ "No such method in networkx."
    ∧ "No such name in networkx.connected." ≠ "No such method in networkx.connected." := by
  refine ⟨fun h C => ?_, fun h C => ?_, fun h C => ?_, fun h C => ?_, by decide, by decide⟩
  · simp [algorithm, h]
  · simp [algorithm, h]
  · simp [connected, h]
  · simp [connected, h]

/-- Witness for C2's theorem at concrete inputs. -/
theorem dispatcher_error_conditions_witness :
    algorithm ([] : List (String × NxEntry Unit)) ⟨[]⟩ "pagerank"
        = .error "No such name in networkx."
    ∧ connected ([("conn", ConnEntry.notFunc)] : List (String × ConnEntry Unit Bool)) ⟨[]⟩ "conn"
        = .error "No such method in networkx.connected." :=
  ⟨(dispatcher_error_conditions ([] : List (String × NxEntry Unit))
      ([] : List (String × ConnEntry Unit Bool)) "pagerank").1 rfl ⟨[]⟩,
   (dispatcher_error_conditions ([] : List (String × NxEntry Unit))
      ([("conn", ConnEntry.notFunc)] : List (String × ConnEntry Unit Bool)) "conn").2.2.2.1
      rfl ⟨[]⟩⟩

/-- Counterexample to C2 as stated: for the method string "foo" both
failure messages are fixed strings that do not contain "foo", so the
message does not name the offending method string. -/
theorem dispatcher_message_counterexample :
    algorithm ([] : List (String × NxEntry Unit)) ⟨[]⟩ "foo"
        = .error "No such name in networkx."
    ∧ algorithm ([("foo", NxEntry.notFunc)] : List (String × NxEntry Unit)) ⟨[]⟩ "foo"
        = .error "No such method in networkx."
    ∧ ¬ "foo".data <:+: "No such name in networkx.".data
    ∧ ¬ "foo".data <:+: "No such method in networkx.".data :=
  ⟨rfl, rfl, by decide, by decide⟩

theorem connected_fold_dget {α β : Type} [DecidableEq α] (f : Graph α → β) :
    ∀ (gl : List (ℤ × Graph α)) (acc : List (ℤ × β)) (k : ℤ), (gl.map (·.1)).Nodup →
      dget (gl.foldl (fun res p => dset res p.1 (f p.2)) acc) k =
        match dget gl k with
        | some g => some (f g)
        | none => dget acc k := by
  intro gl
  induction gl with
  | nil => intro acc k _; simp [dget]
  | cons p t ih =>
    intro acc k hn
    simp only [List.map_cons, List.nodup_cons] at hn
    simp only [List.foldl_cons]
    rw [ih _ k hn.2]
    by_cases hp : p.1 = k
    · subst hp
      cases hd : dget t p.1 with
      | some g => exact absurd (List.mem_map.mpr ⟨_, dget_mem _ _ _ hd, rfl⟩) hn.1
      | none => simp [dget, dget_dset_self]
    · cases hd : dget t k <;> simp [dget, hp, dget_dset_ne _ _ _ _ (Ne.symm hp), hd]

/-- C8: for every collection and resolvable method, `connected` returns
a flat mapping graph-index ↦ raw delegated return value, and the
collection comes back exactly as it went in: no per-element reshaping
and no node attribute write onto any graph. -/
theorem connected_flat_no_writeback {α β : Type} [DecidableEq α]
    (ns : List (String × ConnEntry α β)) (C : Collection α) (method : String)
    (f : Graph α → β) (hf : dget ns method = some (.func f))
    (hk : (C.graphs.map (·.1)).Nodup) :
    ∃ res : List (ℤ × β), connected ns C method = .ok (res, C)
      ∧ ∀ k : ℤ, dget res k = (dget C.graphs k).map f := by
  refine ⟨C.graphs.foldl (fun res p => dset res p.1 (f p.2)) [], ?_, ?_⟩
  · simp [connected, hf]
  · intro k
    rw [connected_fold_dget f C.graphs [] k hk]
    cases dget C.graphs k <;> simp [dget]

/-- Witness for C8's theorem at a concrete two-slice collection. -/
theorem connected_flat_no_writeback_witness :
    ∃ res : List (ℤ × ℕ),
      connected [("number_connected_components", ConnEntry.func (fun g : Graph ℕ => g.nodes.length))]
        ⟨[(1999, ⟨[(0, [1]), (1, [0])], [(0, []), (1, [])]⟩), (2000, ⟨[(7, [])], [(7, [])]⟩)]⟩
        "number_connected_components"
        = .ok (res, ⟨[(1999, ⟨[(0, [1]), (1, [0])], [(0, []), (1, [])]⟩),
                      (2000, ⟨[(7, [])], [(7, [])]⟩)]⟩)
      ∧ ∀ k : ℤ, dget res k =
          (dget ([(1999, (⟨[(0, [1]), (1, [0])], [(0, []), (1, [])]⟩ : Graph ℕ)),
                  (2000, ⟨[(7, [])], [(7, [])]⟩)]) k).map (fun g => g.nodes.length) :=
  connected_flat_no_writeback _ _ "number_connected_components"
    (fun g : Graph ℕ => g.nodes.length) rfl (by decide)

/-! ### The dynamic dispatcher `algorithm` (C1) -/

theorem setattr_fold_frame {α : Type} [DecidableEq α] (name : String) :
    ∀ (vals : List (α × ℚ)) (na : List (α × List (String × Val))) (e : α),
      e ∉ vals.map (·.1) →
      dget (vals.foldl (fun na p =>
        match dget na p.1 with
        | some d => dset na p.1 (dset d name (Val.num p.2))
        | none => na) na) e = dget na e := by
  intro vals
  induction vals with
  | nil => intro na e _; rfl
  | cons p t ih =>
    intro na e he
    simp only [List.map_cons, List.mem_cons, not_or] at he
    simp only [List.foldl_cons]
    rw [ih _ e he.2]
    cases hd : dget na p.1 with
    | some d => exact dget_dset_ne _ _ _ _ he.1
    | none => rfl

theorem setattr_fold_write {α : Type} [DecidableEq α] (name : String) :
    ∀ (vals : List (α × ℚ)) (na : List (α × List (String × Val))) (e : α) (v : ℚ),
      (vals.map (·.1)).Nodup → dget vals e = some v → (dget na e).isSome = true →
      (dget (vals.foldl (fun na p =>
        match dget na p.1 with
        | some d => dset na p.1 (dset d name (Val.num p.2))
        | none => na) na) e).bind (fun d => dget d name) = some (Val.num v) := by
  intro vals
  induction vals with
  | nil => intro na e v _ hv _; simp [dget] at hv
  | cons p t ih =>
    intro na e v hnd hv hs
    simp only [List.map_cons, List.nodup_cons] at hnd
    simp only [List.foldl_cons]
    by_cases hp : p.1 = e
    · have hve : v = p.2 := by
        simp only [dget, if_pos hp] at hv
        exact (Option.some_inj.mp hv).symm
      obtain ⟨d, hd⟩ := Option.isSome_iff_exists.mp hs
      rw [← hp] at hd
      rw [hd]
      have het : e ∉ t.map (·.1) := hp ▸ hnd.1
      rw [setattr_fold_frame name t _ e het, hp]
      rw [dget_dset_self]
      simp [dget_dset_self, hve]
    · have hvt : dget t e = some v := by
        simpa only [dget, if_neg hp] using hv
      have hna : ∀ w, dget (match dget na p.1 with
          | some d => dset na p.1 (dset d name (Val.num w))
          | none => na) e = dget na e := by
        intro w
        cases hd : dget na p.1 with
        | some d => exact dget_dset_ne _ _ _ _ (Ne.symm hp)
        | none => rfl
      rw [ih _ e v hnd.2 hvt (by rw [hna p.2]; exact hs)]

/-- Full characterization of the bulk write-back: after
`set_node_attributes g name vals` (unique value keys, all keys nodes of
the graph, no pre-existing attribute called `name`), the value mapping
of attribute `name` is exactly `vals`. -/
theorem attrOf_set_node_attributes {α : Type} [DecidableEq α] (g : Graph α) (name : String)
    (vals : List (α × ℚ)) (hnd : (vals.map (·.1)).Nodup)
    (hsub : ∀ e ∈ vals.map (·.1), (dget g.nodeAttrs e).isSome = true)
    (hfresh : ∀ a ∈ g.nodeAttrs, dget a.2 name = none) (e : α) :
    (set_node_attributes g name vals).attrOf e name = (dget vals e).map Val.num := by
  unfold Graph.attrOf set_node_attributes
  cases hv : dget vals e with
  | some v =>
    have he : e ∈ vals.map (·.1) := List.mem_map.mpr ⟨_, dget_mem _ _ _ hv, rfl⟩
    simpa using setattr_fold_write name vals g.nodeAttrs e v hnd hv (hsub e he)
  | none =>
    have he : e ∉ vals.map (·.1) := (dget_eq_none_iff _ _).mp hv
    rw [setattr_fold_frame name vals g.nodeAttrs e he]
    cases hd : dget g.nodeAttrs e with
    | none => rfl
    | some d =>
      simpa using hfresh (e, d) (dget_mem _ _ _ hd)

theorem algMerge_dget {α : Type} [DecidableEq α] (k₀ : ℤ) :
    ∀ (r : List (α × ℚ)) (res : List (α × List (ℤ × ℚ))) (e : α) (k : ℤ),
      (r.map (·.1)).Nodup →
      (dget (r.foldl (fun res p =>
          match dget res p.1 with
          | some d => dset res p.1 (dset d k₀ p.2)
          | none => dset res p.1 [(k₀, p.2)]) res) e).bind (fun d => dget d k) =
        if k = k₀ then
          match dget r e with
          | some v => some v
          | none => (dget res e).bind (fun d => dget d k₀)
        else (dget res e).bind (fun d => dget d k) := by
  intro r
  induction r with
  | nil =>
    intro res e k _
    by_cases hk : k = k₀ <;> simp [dget, hk]
  | cons p t ih =>
    intro res e k hnd
    simp only [List.map_cons, List.nodup_cons] at hnd
    simp only [List.foldl_cons]
    rw [ih _ e k hnd.2]
    have hres1 : ∀ k' : ℤ,
        (dget (match dget res p.1 with
          | some d => dset res p.1 (dset d k₀ p.2)
          | none => dset res p.1 [(k₀, p.2)]) e).bind (fun d => dget d k') =
        if e = p.1 then
          (if k' = k₀ then some p.2 else (dget res e).bind (fun d => dget d k'))
        else (dget res e).bind (fun d => dget d k') := by
      intro k'
      by_cases hep : e = p.1
      · rw [if_pos hep, hep]
        cases hd : dget res p.1 with
        | some d =>
          simp only [dget_dset_self]
          by_cases hk' : k' = k₀
          · rw [if_pos hk', hk']
            exact dget_dset_self _ _ _
          · rw [if_neg hk']
            exact dget_dset_ne _ _ _ _ hk'
        | none =>
          simp only [dget_dset_self]
          by_cases hk' : k' = k₀
          · rw [if_pos hk', hk']
            simp [dget]
          · rw [if_neg hk']
            simp [dget, Ne.symm hk']
      · rw [if_neg hep]
        cases hd : dget res p.1 with
        | some d => rw [dget_dset_ne _ _ _ _ hep]
        | none => rw [dget_dset_ne _ _ _ _ hep]
    by_cases hk : k = k₀
    · rw [if_pos hk, if_pos hk]
      by_cases hep : e = p.1
      · have het : dget t e = none := by
          rw [dget_eq_none_iff, hep]
          exact hnd.1
        rw [het, hres1 k₀]
        simp [hep, dget_cons]
      · rw [dget_cons_ne _ _ _ (fun h => hep h.symm)]
        cases ht : dget t e with
        | some v => rfl
        | none => rw [hres1 k₀, if_neg hep]
    · rw [if_neg hk, if_neg hk, hres1 k]
      by_cases hep : e = p.1
      · rw [if_pos hep, if_neg hk]
      · rw [if_neg hep]

theorem algLoop_done {α : Type} [DecidableEq α] (f : Graph α → List (α × ℚ)) (method : String) :
    ∀ (gl : List (ℤ × Graph α)) (res : List (α × List (ℤ × ℚ))) (done : List (ℤ × Graph α)),
      (algLoop f method gl res done).2 =
        done ++ gl.map (fun p => (p.1, set_node_attributes p.2 method (f p.2))) := by
  intro gl
  induction gl with
  | nil => intro res done; simp [algLoop]
  | cons p t ih =>
    intro res done
    obtain ⟨k, g⟩ := p
    simp only [algLoop, ih, List.map_cons, List.append_assoc, List.singleton_append]

theorem algLoop_results {α : Type} [DecidableEq α] (f : Graph α → List (α × ℚ))
    (method : String) :
    ∀ (gl : List (ℤ × Graph α)) (res : List (α × List (ℤ × ℚ))) (done : List (ℤ × Graph α))
      (e : α) (k : ℤ),
      (gl.map (·.1)).Nodup → (∀ p ∈ gl, ((f p.2).map (·.1)).Nodup) →
      (∀ (e' : α) (k' : ℤ), k' ∈ gl.map (·.1) →
        (dget res e').bind (fun d => dget d k') = none) →
      (dget (algLoop f method gl res done).1 e).bind (fun d => dget d k) =
        match dget gl k with
        | some g => dget (f g) e
        | none => (dget res e).bind (fun d => dget d k) := by
  intro gl
  induction gl with
  | nil => intro res done e k _ _ _; simp [algLoop, dget]
  | cons p t ih =>
    intro res done e k hnd hr hres
    obtain ⟨k₀, g₀⟩ := p
    simp only [List.map_cons, List.nodup_cons] at hnd
    simp only [algLoop]
    have hr₀ : ((f g₀).map (·.1)).Nodup := hr (k₀, g₀) (List.mem_cons_self _ _)
    have hres' : ∀ (e' : α) (k' : ℤ), k' ∈ t.map (·.1) →
        (dget ((f g₀).foldl (fun res p =>
          match dget res p.1 with
          | some d => dset res p.1 (dset d k₀ p.2)
          | none => dset res p.1 [(k₀, p.2)]) res) e').bind (fun d => dget d k') = none := by
      intro e' k' hk'
      rw [algMerge_dget k₀ (f g₀) res e' k' hr₀]
      have hne : k' ≠ k₀ := fun h => hnd.1 (h ▸ hk')
      rw [if_neg hne]
      exact hres e' k' (List.mem_cons_of_mem _ hk')
    rw [ih _ _ e k hnd.2 (fun p hp => hr p (List.mem_cons_of_mem _ hp)) hres']
    by_cases hk : k₀ = k
    · subst hk
      have ht : dget t k₀ = none := (dget_eq_none_iff _ _).mpr hnd.1
      have hm := algMerge_dget k₀ (f g₀) res e k₀ hr₀
      rw [if_pos rfl] at hm
      have h0 : (dget res e).bind (fun d => dget d k₀) = none := hres e k₀ (by simp)
      rw [h0] at hm
      rw [ht, hm, dget_cons]
      cases hfe : dget (f g₀) e <;> simp [hfe]
    · have hpt : dget (((k₀, g₀) :: t) : List (ℤ × Graph α)) k = dget t k :=
        dget_cons_ne _ _ _ hk
      rw [hpt]
      cases ht : dget t k with
      | some g => rfl
      | none =>
        rw [algMerge_dget k₀ (f g₀) res e k hr₀, if_neg (fun h => hk h.symm)]

/-- C1: for a resolvable plain function, `algorithm` returns the
element-major nested mapping (looking up element `e` then slice `k`
yields exactly the per-graph result of slice `k` at `e`), and each graph
in the returned collection carries a node attribute named after the
method whose value mapping equals that graph's raw per-graph result. -/
theorem algorithm_merge_and_writeback {α : Type} [DecidableEq α]
    (ns : List (String × NxEntry α)) (C : Collection α) (method : String)
    (f : Graph α → List (α × ℚ))
    (hf : dget ns method = some (.func f))
    (hkeys : (C.graphs.map (·.1)).Nodup)
    (hr : ∀ p ∈ C.graphs, ((f p.2).map (·.1)).Nodup)
    (hsub : ∀ p ∈ C.graphs, ∀ e ∈ (f p.2).map (·.1), (dget p.2.nodeAttrs e).isSome = true)
    (hfresh : ∀ p ∈ C.graphs, ∀ a ∈ p.2.nodeAttrs, dget a.2 method = none) :
    ∃ (res : List (α × List (ℤ × ℚ))) (C' : Collection α),
      algorithm ns C method = .ok (res, C')
      ∧ (∀ (e : α) (k : ℤ), (dget res e).bind (fun d => dget d k)
          = (dget C.graphs k).bind (fun g => dget (f g) e))
      ∧ (∀ (k : ℤ) (g : Graph α), dget C.graphs k = some g →
          ∃ g', dget C'.graphs k = some g'
            ∧ ∀ e : α, g'.attrOf e method = (dget (f g) e).map Val.num) := by
  refine ⟨(algLoop f method C.graphs [] []).1, ⟨(algLoop f method C.graphs [] []).2⟩, ?_, ?_, ?_⟩
  · simp [algorithm, hf]
  · intro e k
    rw [algLoop_results f method C.graphs [] [] e k hkeys hr (fun e' k' _ => by simp [dget])]
    cases dget C.graphs k <;> simp [dget]
  · intro k g hg
    rw [algLoop_done f method C.graphs [] []]
    refine ⟨set_node_attributes g method (f g), ?_, ?_⟩
    · simpa using (dget_map_snd C.graphs (fun g => set_node_attributes g method (f g)) k).trans
        (by rw [hg]; rfl)
    · intro e
      have hgm : (k, g) ∈ C.graphs := dget_mem _ _ _ hg
      exact attrOf_set_node_attributes g method (f g) (hr _ hgm) (hsub _ hgm)
        (hfresh _ hgm) e

/-- Witness for C1's theorem: a two-slice collection and a concrete
degree-like per-node function. -/
theorem algorithm_merge_and_writeback_witness :
    ∃ (res : List (ℕ × List (ℤ × ℚ))) (C' : Collection ℕ),
      algorithm [("degree", NxEntry.func exDegF)] exC "degree" = .ok (res, C')
      ∧ (∀ (e : ℕ) (k : ℤ), (dget res e).bind (fun d => dget d k)
          = (dget exC.graphs k).bind (fun g => dget (exDegF g) e))
      ∧ (∀ (k : ℤ) (g : Graph ℕ), dget exC.graphs k = some g →
          ∃ g', dget C'.graphs k = some g'
            ∧ ∀ e : ℕ, g'.attrOf e "degree" = (dget (exDegF g) e).map Val.num) :=
  algorithm_merge_and_writeback [("degree", NxEntry.func exDegF)] exC "degree" exDegF
    rfl (by decide) (by decide) (by decide) (by decide)

/-! ### The delta calculator (C3, C4, C7, C9) -/

theorem deltaBranch_some (lastn : Option ℚ) (q : ℚ) :
    deltaBranch lastn (some q) = (q - lastn.getD 0, some q) := by
  cases lastn with
  | none => simp [deltaBranch]
  | some l => simp [deltaBranch]

theorem deltaBody_ok {α : Type} [DecidableEq α] (asdict : List (α × List (String × Val)))
    (attr : String) (n : α) (lastn : Option ℚ) (nd : List (String × Val)) (q : ℚ)
    (hd : dget asdict n = some nd) (hv : dget nd attr = some (Val.num q)) :
    deltaBody asdict attr n lastn = .ok (q - lastn.getD 0, some q) := by
  simp [deltaBody, hd, hv, pyFloat, deltaBranch_some]

theorem deltaBody_not_indexError {α : Type} [DecidableEq α]
    (asdict : List (α × List (String × Val))) (attr : String) (a : α) (l : Option ℚ) :
    deltaBody asdict attr a l ≠ .error PErr.indexError := by
  cases hd : dget asdict a with
  | none => simp [deltaBody, hd]
  | some nd =>
    cases hv : dget nd attr with
    | none => simp [deltaBody, hd, hv]
    | some v => cases v <;> simp [deltaBody, hd, hv, pyFloat]

theorem deltaSlice_spec {α : Type} [DecidableEq α] (attr : String)
    (asdict : List (α × List (String × Val))) (n : α) :
    ∀ (ns : List α) (last : List (α × Option ℚ)) (dk : List (α × ℚ)),
      ns.Nodup →
      (∀ m ∈ ns, ∀ nd, dget asdict m = some nd → ∀ v, dget nd attr = some v → v ≠ Val.nonnum) →
      ∃ dk' last', deltaSlice attr asdict ns last dk = .ok (dk', last')
        ∧ dget dk' n = (if n ∈ ns then
            match aval asdict attr n with
            | some q => some (q - ((dget last n).getD none).getD 0)
            | none => dget dk n
          else dget dk n)
        ∧ dget last' n = (if n ∈ ns then
            match aval asdict attr n with
            | some q => some (some q)
            | none => dget last n
          else dget last n) := by
  intro ns
  induction ns with
  | nil =>
    intro last dk _ _
    exact ⟨dk, last, rfl, by simp, by simp⟩
  | cons m t ih =>
    intro last dk hnd hok
    simp only [List.nodup_cons] at hnd
    have hok' : ∀ m' ∈ t, ∀ nd, dget asdict m' = some nd →
        ∀ v, dget nd attr = some v → v ≠ Val.nonnum :=
      fun m' hm' => hok m' (List.mem_cons_of_mem _ hm')
    have hbody : (dget asdict m = none
          ∧ deltaBody asdict attr m ((dget last m).getD none) = .error .keyError)
        ∨ (∃ nd, dget asdict m = some nd ∧ dget nd attr = none
          ∧ deltaBody asdict attr m ((dget last m).getD none) = .error .keyError)
        ∨ (∃ nd q, dget asdict m = some nd ∧ dget nd attr = some (Val.num q)
          ∧ deltaBody asdict attr m ((dget last m).getD none)
              = .ok (q - ((dget last m).getD none).getD 0, some q)) := by
      cases hd : dget asdict m with
      | none => exact Or.inl ⟨rfl, by simp [deltaBody, hd]⟩
      | some nd =>
        cases hv : dget nd attr with
        | none => exact Or.inr (Or.inl ⟨nd, rfl, hv, by simp [deltaBody, hd, hv]⟩)
        | some v =>
          cases v with
          | num q => exact Or.inr (Or.inr ⟨nd, q, rfl, hv, deltaBody_ok _ _ _ _ _ _ hd hv⟩)
          | nonnum => exact absurd rfl (hok m (List.mem_cons_self _ _) nd hd Val.nonnum hv)
    rcases hbody with ⟨hd, hb⟩ | ⟨nd, hd, hv, hb⟩ | ⟨nd, q, hd, hv, hb⟩
    · obtain ⟨dk', last', heq, h1, h2⟩ := ih last dk hnd.2 hok'
      refine ⟨dk', last', ?_, ?_, ?_⟩
      · simpa only [deltaSlice, hb] using heq
      · rw [h1]
        by_cases hnm : n = m
        · have hav : aval asdict attr n = none := by simp [aval, hnm, hd]
          simp [hav, List.mem_cons]
        · simp [List.mem_cons, hnm]
      · rw [h2]
        by_cases hnm : n = m
        · have hav : aval asdict attr n = none := by simp [aval, hnm, hd]
          simp [hav, List.mem_cons]
        · simp [List.mem_cons, hnm]
    · obtain ⟨dk', last', heq, h1, h2⟩ := ih last dk hnd.2 hok'
      refine ⟨dk', last', ?_, ?_, ?_⟩
      · simpa only [deltaSlice, hb] using heq
      · rw [h1]
        by_cases hnm : n = m
        · have hav : aval asdict attr n = none := by simp [aval, hnm, hd, hv]
          simp [hav, List.mem_cons]
        · simp [List.mem_cons, hnm]
      · rw [h2]
        by_cases hnm : n = m
        · have hav : aval asdict attr n = none := by simp [aval, hnm, hd, hv]
          simp [hav, List.mem_cons]
        · simp [List.mem_cons, hnm]
    · obtain ⟨dk', last', heq, h1, h2⟩ :=
        ih (dset last m (some q)) (dset dk m (q - ((dget last m).getD none).getD 0))
          hnd.2 hok'
      refine ⟨dk', last', ?_, ?_, ?_⟩
      · simpa only [deltaSlice, hb] using heq
      · by_cases hnm : n = m
        · subst hnm
          have hav : aval asdict attr n = some q := by simp [aval, hd, hv]
          rw [h1, if_neg hnd.1, if_pos (List.mem_cons_self _ _), dget_dset_self, hav]
        · have e1 : dget (dset last m (some q)) n = dget last n :=
            dget_dset_ne _ _ _ _ hnm
          have e2 : dget (dset dk m (q - ((dget last m).getD none).getD 0)) n = dget dk n :=
            dget_dset_ne _ _ _ _ hnm
          rw [h1]
          simp [List.mem_cons, hnm, e1, e2]
      · by_cases hnm : n = m
        · subst hnm
          have hav : aval asdict attr n = some q := by simp [aval, hd, hv]
          rw [h2, if_neg hnd.1, if_pos (List.mem_cons_self _ _), dget_dset_self, hav]
        · have e1 : dget (dset last m (some q)) n = dget last n :=
            dget_dset_ne _ _ _ _ hnm
          rw [h2]
          simp [List.mem_cons, hnm, e1]

theorem deltaKeys_spec {α : Type} [DecidableEq α] (attr : String) (allNodes : List α)
    (C : Collection α) (n : α)
    (hN : allNodes.Nodup) (hn : n ∈ allNodes)
    (hnum : ∀ p ∈ C.graphs, ∀ a ∈ p.2.nodeAttrs, ∀ r ∈ a.2, r.1 = attr → r.2 ≠ Val.nonnum) :
    ∀ (ks : List ℤ) (C' : Collection α) (last : List (α × Option ℚ))
      (deltas : List (ℤ × List (α × ℚ))) (L : Option ℚ),
      ks.Nodup →
      (∀ k ∈ ks, dget C'.graphs k = dget C.graphs k) →
      (∀ k ∈ ks, (dget C.graphs k).isSome = true) →
      (∀ k ∈ ks, dget deltas k = some []) →
      dget last n = some L →
      ∃ res C'', deltaKeys attr allNodes ks C' last deltas = .ok (res, C'')
        ∧ (∀ k ∈ ks, (dget res k).bind (fun dk => dget dk n)
            = (attrQ C attr k n).map (fun q =>
                q - (lastObs (fun j => attrQ C attr j n)
                      (ks.takeWhile (fun j => j ≠ k)) L).getD 0))
        ∧ (∀ k : ℤ, k ∉ ks → dget res k = dget deltas k) := by
  intro ks
  induction ks with
  | nil =>
    intro C' last deltas L _ _ _ _ _
    exact ⟨deltas, C', rfl, by simp, fun k _ => rfl⟩
  | cons k₀ ks ih =>
    intro C' last deltas L hnd hagree hsome hdel hlast
    simp only [List.nodup_cons] at hnd
    obtain ⟨g, hgC⟩ := Option.isSome_iff_exists.mp (hsome k₀ (List.mem_cons_self _ _))
    have hgC' : dget C'.graphs k₀ = some g := (hagree k₀ (List.mem_cons_self _ _)).trans hgC
    have hok : ∀ m ∈ allNodes, ∀ nd, dget g.nodeAttrs m = some nd →
        ∀ v, dget nd attr = some v → v ≠ Val.nonnum := by
      intro m _ nd hm v hv
      exact hnum (k₀, g) (dget_mem _ _ _ hgC) (m, nd) (dget_mem _ _ _ hm) (attr, v)
        (dget_mem _ _ _ hv) rfl
    obtain ⟨dk', last', hslice, h1, h2⟩ :=
      deltaSlice_spec attr g.nodeAttrs n allNodes last ((dget deltas k₀).getD []) hN hok
    have hdk0 : (dget deltas k₀).getD [] = [] := by
      rw [hdel k₀ (List.mem_cons_self _ _)]
      rfl
    have hq : aval g.nodeAttrs attr n = attrQ C attr k₀ n := by simp [attrQ, hgC]
    have hlast' : dget last' n
        = some (match attrQ C attr k₀ n with | some q => some q | none => L) := by
      rw [h2, if_pos hn, hq]
      cases attrQ C attr k₀ n with
      | some q => rfl
      | none => exact hlast
    obtain ⟨res, C'', heq, hin, hout⟩ :=
      ih ⟨dset C'.graphs k₀ (set_node_attributes g (attr ++ "_delta") dk')⟩ last'
        (dset deltas k₀ dk')
        (match attrQ C attr k₀ n with | some q => some q | none => L)
        hnd.2
        (fun k hk => by
          have hne : k ≠ k₀ := fun h => hnd.1 (h ▸ hk)
          show dget (dset C'.graphs k₀ _) k = _
          rw [dget_dset_ne _ _ _ _ hne]
          exact hagree k (List.mem_cons_of_mem _ hk))
        (fun k hk => hsome k (List.mem_cons_of_mem _ hk))
        (fun k hk => by
          have hne : k ≠ k₀ := fun h => hnd.1 (h ▸ hk)
          rw [dget_dset_ne _ _ _ _ hne]
          exact hdel k (List.mem_cons_of_mem _ hk))
        hlast'
    refine ⟨res, C'', ?_, ?_, ?_⟩
    · simp only [deltaKeys, hgC', hslice]
      exact heq
    · intro k hk
      rcases List.mem_cons.mp hk with rfl | hkt
      · have hres0 : dget res k = some dk' := by
          rw [hout k hnd.1, dget_dset_self]
        rw [hres0]
        have htw : ((k :: ks).takeWhile (fun j => j ≠ k)) = [] := by
          simp [List.takeWhile_cons]
        rw [htw]
        simp only [Option.some_bind]
        rw [h1, if_pos hn, hq, hdk0]
        rw [hlast]
        cases attrQ C attr k n with
        | some q => rfl
        | none => rfl
      · have hne : k₀ ≠ k := fun h => hnd.1 (h ▸ hkt)
        rw [hin k hkt]
        have htw : ((k₀ :: ks).takeWhile (fun j => j ≠ k))
            = k₀ :: ks.takeWhile (fun j => j ≠ k) := by
          simp [List.takeWhile_cons, hne]
        rw [htw]
        rfl
    · intro k hk
      simp only [List.mem_cons, not_or] at hk
      rw [hout k hk.2, dget_dset_ne _ _ _ _ hk.1]

theorem delta_spec {α : Type} [DecidableEq α] (C : Collection α) (attr : String) (n : α)
    (hkeys : (C.graphs.map (·.1)).Nodup)
    (hnum : ∀ p ∈ C.graphs, ∀ a ∈ p.2.nodeAttrs, ∀ r ∈ a.2, r.1 = attr → r.2 ≠ Val.nonnum)
    (hn : n ∈ C.nodes) :
    ∃ pr, delta C attr = .ok pr
      ∧ ∀ k ∈ sortedKeys C, (dget pr.1 k).bind (fun dk => dget dk n)
          = (attrQ C attr k n).map (fun q => q - (lastBefore C attr n k).getD 0) := by
  have hperm := List.perm_insertionSort (fun a b : ℤ => a ≤ b) (C.graphs.map (·.1))
  have hsk : (sortedKeys C).Nodup := hperm.nodup_iff.mpr hkeys
  have hsome : ∀ k ∈ sortedKeys C, (dget C.graphs k).isSome = true := by
    intro k hk
    rw [dget_isSome_iff]
    exact hperm.mem_iff.mp hk
  have hdel : ∀ k ∈ sortedKeys C,
      dget ((sortedKeys C).map (fun k => (k, ([] : List (α × ℚ))))) k = some [] := by
    intro k hk
    rw [dget_map_pair, if_pos hk]
  have hlast : dget (C.nodes.map (fun n => (n, (none : Option ℚ)))) n = some none := by
    rw [dget_map_pair, if_pos hn]
  obtain ⟨res, C'', heq, hin, _⟩ :=
    deltaKeys_spec attr C.nodes C n (List.nodup_dedup _) hn hnum (sortedKeys C) C
      (C.nodes.map (fun n => (n, (none : Option ℚ))))
      ((sortedKeys C).map (fun k => (k, ([] : List (α × ℚ))))) none
      hsk (fun _ _ => rfl) hsome hdel hlast
  exact ⟨(res, C''), heq, hin⟩

/-- C3: iterating the slices in ascending sorted key order, every node
whose attribute is present and numeric in a slice records a delta equal
to the current value minus the last previously observed value (its
`getD 0` baseline makes the first observation record the current value
itself); for a node present in every slice this yields
`v₁, v₂-v₁, ..., v_k-v_{k-1}` in slice order. -/
theorem delta_first_difference {α : Type} [DecidableEq α] (C : Collection α) (attr : String)
    (n : α) (k : ℤ) (q : ℚ)
    (hkeys : (C.graphs.map (·.1)).Nodup)
    (hnum : ∀ p ∈ C.graphs, ∀ a ∈ p.2.nodeAttrs, ∀ r ∈ a.2, r.1 = attr → r.2 ≠ Val.nonnum)
    (hn : n ∈ C.nodes)
    (hq : attrQ C attr k n = some q) :
    ∃ pr, delta C attr = .ok pr
      ∧ (dget pr.1 k).bind (fun dk => dget dk n)
          = some (q - (lastBefore C attr n k).getD 0) := by
  obtain ⟨pr, heq, hin⟩ := delta_spec C attr n hkeys hnum hn
  have hk : k ∈ sortedKeys C := by
    refine (List.perm_insertionSort _ _).mem_iff.mpr ?_
    rw [← dget_isSome_iff]
    cases hd : dget C.graphs k with
    | none => rw [attrQ, hd] at hq; simp at hq
    | some g => rfl
  refine ⟨pr, heq, ?_⟩
  rw [hin k hk, hq]
  rfl

/-- Witness for C3's theorem on the spec's concrete scenario. -/
theorem delta_first_difference_witness :
    ∃ pr, delta exDC "x" = .ok pr
      ∧ (dget pr.1 2001).bind (fun dk => dget dk 2)
          = some (5 - (lastBefore exDC "x" 2 2001).getD 0) :=
  delta_first_difference exDC "x" 2 2001 5 (by decide) (by decide) (by decide) (by decide)

/-- C7: a node whose attribute is missing in slice `k` gets no entry
for that slice, and at every slice where its attribute is numeric the
delta is computed relative to the last previously observed value —
the tracking is not reset by the gap. -/
theorem delta_missing_attribute_gap {α : Type} [DecidableEq α] (C : Collection α)
    (attr : String) (n : α) (k : ℤ)
    (hkeys : (C.graphs.map (·.1)).Nodup)
    (hnum : ∀ p ∈ C.graphs, ∀ a ∈ p.2.nodeAttrs, ∀ r ∈ a.2, r.1 = attr → r.2 ≠ Val.nonnum)
    (hn : n ∈ C.nodes)
    (hk : k ∈ C.graphs.map (·.1))
    (hq : attrQ C attr k n = none) :
    ∃ pr, delta C attr = .ok pr
      ∧ (dget pr.1 k).bind (fun dk => dget dk n) = none
      ∧ ∀ (k' : ℤ) (q' : ℚ), attrQ C attr k' n = some q' →
          (dget pr.1 k').bind (fun dk => dget dk n)
            = some (q' - (lastBefore C attr n k').getD 0) := by
  obtain ⟨pr, heq, hin⟩ := delta_spec C attr n hkeys hnum hn
  refine ⟨pr, heq, ?_, ?_⟩
  · rw [hin k ((List.perm_insertionSort _ _).mem_iff.mpr hk), hq]
    rfl
  · intro k' q' hq'
    have hk' : k' ∈ sortedKeys C := by
      refine (List.perm_insertionSort _ _).mem_iff.mpr ?_
      rw [← dget_isSome_iff]
      cases hd : dget C.graphs k' with
      | none => rw [attrQ, hd] at hq'; simp at hq'
      | some g => rfl
    rw [hin k' hk', hq']
    rfl

/-- Witness for C7's theorem on the gap collection. -/
theorem delta_missing_attribute_gap_witness :
    ∃ pr, delta exDC7 "x" = .ok pr
      ∧ (dget pr.1 2001).bind (fun dk => dget dk 1) = none
      ∧ ∀ (k' : ℤ) (q' : ℚ), attrQ exDC7 "x" k' 1 = some q' →
          (dget pr.1 k').bind (fun dk => dget dk 1)
            = some (q' - (lastBefore exDC7 "x" 1 k').getD 0) :=
  delta_missing_attribute_gap exDC7 "x" 1 2001 (by decide) (by decide) (by decide)
    (by decide) (by decide)

/-- C9: whenever the attribute lookup (and float coercion) succeeds,
`curr` is `some` of a number and never `None`: one of the two specified
branch guards holds, the fallback `delta = 0.` branch is unreachable,
the recorded pair is exactly the one the two specified branches
produce, and the slice loop records an entry for that node. -/
theorem delta_fallback_unreachable {α : Type} [DecidableEq α]
    (asdict : List (α × List (String × Val))) (attr : String) (n : α)
    (lastn : Option ℚ) (q : ℚ) (nd : List (String × Val)) :
    ((lastn ≠ none ∧ (some q : Option ℚ) ≠ none)
      ∨ (lastn = none ∧ (some q : Option ℚ) ≠ none))
    ∧ deltaBranch lastn (some q) = (q - lastn.getD 0, some q)
    ∧ (dget asdict n = some nd → dget nd attr = some (Val.num q) →
        deltaBody asdict attr n lastn = .ok (q - lastn.getD 0, some q))
    ∧ (∀ (ns : List α) (last : List (α × Option ℚ)) (dk : List (α × ℚ)),
        ns.Nodup → n ∈ ns →
        (∀ m ∈ ns, ∀ nd', dget asdict m = some nd' →
          ∀ v, dget nd' attr = some v → v ≠ Val.nonnum) →
        dget asdict n = some nd → dget nd attr = some (Val.num q) →
        ∃ dk' last', deltaSlice attr asdict ns last dk = .ok (dk', last')
          ∧ (dget dk' n).isSome = true) := by
  refine ⟨?_, deltaBranch_some lastn q,
    fun hd hv => deltaBody_ok _ _ _ _ _ _ hd hv, ?_⟩
  · cases lastn with
    | none => exact Or.inr ⟨rfl, by simp⟩
    | some l => exact Or.inl ⟨by simp, by simp⟩
  · intro ns last dk hnd hmem hok hd hv
    obtain ⟨dk', last', heq, h1, _⟩ := deltaSlice_spec attr asdict n ns last dk hnd hok
    refine ⟨dk', last', heq, ?_⟩
    have hav : aval asdict attr n = some q := by simp [aval, hd, hv]
    rw [h1, if_pos hmem, hav]
    rfl

/-- Witness for C9's theorem at concrete inputs. -/
theorem delta_fallback_unreachable_witness :
    deltaBranch (some 1) (some 3) = (3 - (some (1 : ℚ)).getD 0, some 3)
    ∧ deltaBody [(0, [("x", Val.num 3)])] "x" 0 (some 1)
        = .ok (3 - (some (1 : ℚ)).getD 0, some 3)
    ∧ ∃ dk' last', deltaSlice "x" [(0, [("x", Val.num 3)])] [0] [(0, some 1)] []
        = .ok (dk', last') ∧ (dget dk' 0).isSome = true :=
  ⟨(delta_fallback_unreachable [(0, [("x", Val.num 3)])] "x" 0 (some 1) 3
      [("x", Val.num 3)]).2.1,
   (delta_fallback_unreachable [(0, [("x", Val.num 3)])] "x" 0 (some 1) 3
      [("x", Val.num 3)]).2.2.1 rfl rfl,
   (delta_fallback_unreachable [(0, [("x", Val.num 3)])] "x" 0 (some 1) 3
      [("x", Val.num 3)]).2.2.2 [0] [(0, some 1)] [] (by decide) (by decide)
      (by decide) rfl rfl⟩

theorem deltaSlice_abort {α : Type} [DecidableEq α] (attr : String)
    (asdict : List (α × List (String × Val))) :
    ∀ (ns : List α) (last : List (α × Option ℚ)) (dk : List (α × ℚ)) (m : α)
      (nd : List (String × Val)),
      m ∈ ns → dget asdict m = some nd → dget nd attr = some Val.nonnum →
      deltaSlice attr asdict ns last dk = .error .valueError := by
  intro ns
  induction ns with
  | nil => intro last dk m nd hm _ _; simp at hm
  | cons a t ih =>
    intro last dk m nd hm hd hv
    rcases List.mem_cons.mp hm with heq | hmt
    · have hb : deltaBody asdict attr a ((dget last a).getD none) = .error .valueError := by
        rw [heq] at hd
        simp [deltaBody, hd, hv, pyFloat]
      simp [deltaSlice, hb]
    · cases hb : deltaBody asdict attr a ((dget last a).getD none) with
      | ok p =>
        obtain ⟨d, l'⟩ := p
        simp only [deltaSlice, hb]
        exact ih _ _ m nd hmt hd hv
      | error e =>
        cases e with
        | keyError =>
          simp only [deltaSlice, hb]
          exact ih _ _ m nd hmt hd hv
        | valueError => simp [deltaSlice, hb]
        | indexError => exact absurd hb (deltaBody_not_indexError _ _ _ _)

theorem deltaSlice_error_eq {α : Type} [DecidableEq α] (attr : String)
    (asdict : List (α × List (String × Val))) :
    ∀ (ns : List α) (last : List (α × Option ℚ)) (dk : List (α × ℚ)) (e : PErr),
      deltaSlice attr asdict ns last dk = .error e → e = PErr.valueError := by
  intro ns
  induction ns with
  | nil => intro last dk e h; simp [deltaSlice] at h
  | cons a t ih =>
    intro last dk e h
    cases hb : deltaBody asdict attr a ((dget last a).getD none) with
    | ok p =>
      obtain ⟨d, l'⟩ := p
      simp only [deltaSlice, hb] at h
      exact ih _ _ e h
    | error e' =>
      cases e' with
      | keyError =>
        simp only [deltaSlice, hb] at h
        exact ih _ _ e h
      | valueError =>
        simp only [deltaSlice, hb] at h
        exact (Except.error.inj h.symm)
      | indexError => exact absurd hb (deltaBody_not_indexError _ _ _ _)

theorem deltaKeys_abort {α : Type} [DecidableEq α] (attr : String) (allNodes : List α)
    (C : Collection α) (n : α) (nd : List (String × Val)) (hn : n ∈ allNodes) :
    ∀ (ks : List ℤ) (C' : Collection α) (last : List (α × Option ℚ))
      (deltas : List (ℤ × List (α × ℚ))) (k : ℤ) (g : Graph α),
      ks.Nodup →
      (∀ j ∈ ks, dget C'.graphs j = dget C.graphs j) →
      (∀ j ∈ ks, (dget C.graphs j).isSome = true) →
      k ∈ ks → dget C.graphs k = some g →
      dget g.nodeAttrs n = some nd → dget nd attr = some Val.nonnum →
      deltaKeys attr allNodes ks C' last deltas = .error .valueError := by
  intro ks
  induction ks with
  | nil => intro C' last deltas k g _ _ _ hk _ _ _; simp at hk
  | cons j₀ t ih =>
    intro C' last deltas k g hnd hagree hsome hk hgC hnd' hv
    simp only [List.nodup_cons] at hnd
    obtain ⟨g₀, hg₀⟩ := Option.isSome_iff_exists.mp (hsome j₀ (List.mem_cons_self _ _))
    have hg₀' : dget C'.graphs j₀ = some g₀ := (hagree j₀ (List.mem_cons_self _ _)).trans hg₀
    rcases List.mem_cons.mp hk with heq | hkt
    · have hgg : g₀ = g := by
        rw [heq] at hgC
        exact Option.some_inj.mp (hg₀.symm.trans hgC)
      have hsl : deltaSlice attr g₀.nodeAttrs allNodes last ((dget deltas j₀).getD [])
          = .error .valueError :=
        deltaSlice_abort attr g₀.nodeAttrs allNodes last _ n nd hn (by rw [hgg]; exact hnd') hv
      simp [deltaKeys, hg₀', hsl]
    · cases hsl : deltaSlice attr g₀.nodeAttrs allNodes last ((dget deltas j₀).getD []) with
      | error e =>
        have he : e = PErr.valueError := deltaSlice_error_eq attr g₀.nodeAttrs allNodes last _ e hsl
        rw [he] at hsl
        simp [deltaKeys, hg₀', hsl]
      | ok p =>
        obtain ⟨dk', last'⟩ := p
        simp only [deltaKeys, hg₀', hsl]
        refine ih ⟨dset C'.graphs j₀ (set_node_attributes g₀ (attr ++ "_delta") dk')⟩ last'
          (dset deltas j₀ dk') k g hnd.2 ?_
          (fun j hj => hsome j (List.mem_cons_of_mem _ hj)) hkt hgC hnd' hv
        intro j hj
        have hne : j ≠ j₀ := fun h => hnd.1 (h ▸ hj)
        show dget (dset C'.graphs j₀ _) j = _
        rw [dget_dset_ne _ _ _ _ hne]
        exact hagree j (List.mem_cons_of_mem _ hj)

/-- C4 (amended): a node attribute value on which float coercion fails
is NOT recovered locally — the ValueError escapes the `except KeyError`
handler and the whole `delta` call fails; no result mapping is
returned. -/
theorem delta_coercion_failure_aborts {α : Type} [DecidableEq α] (C : Collection α)
    (attr : String) (n : α) (k : ℤ) (g : Graph α) (nd : List (String × Val))
    (hkeys : (C.graphs.map (·.1)).Nodup)
    (hn : n ∈ C.nodes)
    (hg : dget C.graphs k = some g)
    (hnd : dget g.nodeAttrs n = some nd)
    (hv : dget nd attr = some Val.nonnum) :
    delta C attr = .error .valueError := by
  have hperm := List.perm_insertionSort (fun a b : ℤ => a ≤ b) (C.graphs.map (·.1))
  have hk : k ∈ sortedKeys C := hperm.mem_iff.mpr (by rw [← dget_isSome_iff, hg]; rfl)
  exact deltaKeys_abort attr C.nodes C n nd hn (sortedKeys C) C
    (C.nodes.map (fun n => (n, (none : Option ℚ))))
    ((sortedKeys C).map (fun k => (k, ([] : List (α × ℚ))))) k g
    (hperm.nodup_iff.mpr hkeys) (fun _ _ => rfl)
    (fun j hj => by rw [dget_isSome_iff]; exact hperm.mem_iff.mp hj) hk hg hnd hv

/-- Witness for C4's amended theorem on the concrete bad collection. -/
theorem delta_coercion_failure_aborts_witness :
    delta exCBad "x" = .error PErr.valueError :=
  delta_coercion_failure_aborts exCBad "x" 1 2000 exGBad [("x", Val.nonnum)]
    (by decide) (by decide) rfl rfl rfl

/-- Counterexample to C4 as stated: on `exCBad` (one slice, node 1's
attribute non-numeric) the call fails with ValueError instead of
silently omitting node 1 and returning results for node 0. -/
theorem delta_coercion_counterexample :
    delta exCBad "x" = .error PErr.valueError
    ∧ ∀ pr : List (ℤ × List (ℕ × ℚ)) × Collection ℕ, delta exCBad "x" ≠ .ok pr :=
  ⟨rfl, fun _ h =>
    Except.noConfusion
      ((rfl : delta exCBad "x" = .error PErr.valueError).symm.trans h)⟩

/-! ### Attachment probability (C5, C6, C10) -/

theorem neStep_frame {α : Type} [DecidableEq α] (gprev g : Graph α)
    (acc : List (α × ℚ)) (m n : α) (h : n ≠ m) :
    dget (neStep gprev g acc m) n = dget acc n := by
  cases hma : dget gprev.adj m with
  | none => simp [neStep, hma]
  | some old =>
    simp only [neStep, hma]
    by_cases hl : 0 < old.dedup.length
    · rw [if_pos hl, dget_dset_ne _ _ _ _ h]
    · rw [if_neg hl, dget_dset_ne _ _ _ _ h]

theorem neStep_none {α : Type} [DecidableEq α] (gprev g : Graph α)
    (acc : List (α × ℚ)) (n : α) (h : dget gprev.adj n = none) :
    neStep gprev g acc n = acc := by
  simp [neStep, h]

theorem neStep_some {α : Type} [DecidableEq α] (gprev g : Graph α)
    (acc : List (α × ℚ)) (n : α) (old : List α) (h : dget gprev.adj n = some old) :
    dget (neStep gprev g acc n) n = some (newEdgeCount g n old) := by
  simp only [neStep, h]
  by_cases hl : 0 < old.dedup.length
  · rw [if_pos hl, dget_dset_self, newEdgeCount, if_pos hl]
  · rw [if_neg hl, dget_dset_self, newEdgeCount, if_neg hl]

theorem neStep_mem {α : Type} [DecidableEq α] (gprev g : Graph α)
    (acc : List (α × ℚ)) (m : α) (p : α × ℚ) (hp : p ∈ neStep gprev g acc m) :
    p ∈ acc ∨ 0 ≤ p.2 := by
  cases hma : dget gprev.adj m with
  | none =>
    simp only [neStep, hma] at hp
    exact Or.inl hp
  | some old =>
    simp only [neStep, hma] at hp
    by_cases hl : 0 < old.dedup.length
    · rw [if_pos hl] at hp
      rcases mem_dset _ _ _ _ hp with rfl | hp'
      · exact Or.inr (Nat.cast_nonneg _)
      · exact Or.inl hp'
    · rw [if_neg hl] at hp
      rcases mem_dset _ _ _ _ hp with rfl | hp'
      · exact Or.inr (le_refl 0)
      · exact Or.inl hp'

theorem neStep_nodup {α : Type} [DecidableEq α] (gprev g : Graph α)
    (acc : List (α × ℚ)) (m : α) (h : (acc.map (·.1)).Nodup) :
    ((neStep gprev g acc m).map (·.1)).Nodup := by
  cases hma : dget gprev.adj m with
  | none => simpa [neStep, hma] using h
  | some old =>
    simp only [neStep, hma]
    by_cases hl : 0 < old.dedup.length
    · rw [if_pos hl]; exact nodup_keys_dset _ _ _ h
    · rw [if_neg hl]; exact nodup_keys_dset _ _ _ h

theorem newEdges_fold {α : Type} [DecidableEq α] (gprev g : Graph α) (n : α) :
    ∀ (ns : List α) (acc : List (α × ℚ)),
      (dget gprev.adj n = none →
        dget (ns.foldl (neStep gprev g) acc) n = dget acc n)
      ∧ (∀ old, dget gprev.adj n = some old →
        dget (ns.foldl (neStep gprev g) acc) n
          = if n ∈ ns then some (newEdgeCount g n old) else dget acc n) := by
  intro ns
  induction ns with
  | nil =>
    intro acc
    exact ⟨fun _ => rfl, fun old _ => by simp⟩
  | cons m t ih =>
    intro acc
    constructor
    · intro hnone
      simp only [List.foldl_cons]
      by_cases hm : n = m
      · subst hm
        rw [(ih _).1 hnone, neStep_none gprev g acc n hnone]
      · rw [(ih _).1 hnone, neStep_frame gprev g acc m n hm]
    · intro old hsome
      simp only [List.foldl_cons]
      by_cases hm : n = m
      · subst hm
        rw [(ih _).2 old hsome, if_pos (List.mem_cons_self _ _)]
        by_cases hmt : n ∈ t
        · rw [if_pos hmt]
        · rw [if_neg hmt, neStep_some gprev g acc n old hsome]
      · rw [(ih _).2 old hsome]
        by_cases hmt : n ∈ t
        · rw [if_pos hmt, if_pos (List.mem_cons_of_mem _ hmt)]
        · rw [if_neg hmt, if_neg (by simp [List.mem_cons, hm, hmt]),
            neStep_frame gprev g acc m n hm]

theorem newEdges_dget {α : Type} [DecidableEq α] (gprev g : Graph α) (n : α) :
    dget (newEdgesOf gprev g) n
      = if n ∈ g.nodes then (dget gprev.adj n).map (newEdgeCount g n) else none := by
  unfold newEdgesOf
  cases ha : dget gprev.adj n with
  | none =>
    rw [(newEdges_fold gprev g n g.nodes []).1 ha]
    simp [dget_nil]
  | some old =>
    rw [(newEdges_fold gprev g n g.nodes []).2 old ha]
    by_cases hmem : n ∈ g.nodes
    · rw [if_pos hmem, if_pos hmem]
      rfl
    · rw [if_neg hmem, if_neg hmem]
      rfl

theorem newEdges_mem_nonneg {α : Type} [DecidableEq α] (gprev g : Graph α) :
    ∀ p ∈ newEdgesOf gprev g, 0 ≤ p.2 := by
  unfold newEdgesOf
  suffices h : ∀ (ns : List α) (acc : List (α × ℚ)), (∀ p ∈ acc, 0 ≤ p.2) →
      ∀ p ∈ ns.foldl (neStep gprev g) acc, 0 ≤ p.2 by
    exact h g.nodes [] (by simp)
  intro ns
  induction ns with
  | nil => intro acc hacc; exact hacc
  | cons m t ih =>
    intro acc hacc
    simp only [List.foldl_cons]
    refine ih _ ?_
    intro p hp
    rcases neStep_mem gprev g acc m p hp with hp' | hp'
    · exact hacc p hp'
    · exact hp'

theorem newEdges_nodup_keys {α : Type} [DecidableEq α] (gprev g : Graph α) :
    ((newEdgesOf gprev g).map (·.1)).Nodup := by
  unfold newEdgesOf
  suffices h : ∀ (ns : List α) (acc : List (α × ℚ)), (acc.map (·.1)).Nodup →
      ((ns.foldl (neStep gprev g) acc).map (·.1)).Nodup by
    exact h g.nodes [] (by simp)
  intro ns
  induction ns with
  | nil => intro acc hacc; exact hacc
  | cons m t ih =>
    intro acc hacc
    simp only [List.foldl_cons]
    exact ih _ (neStep_nodup gprev g acc m hacc)

theorem zeros_fold_dget {α : Type} [DecidableEq α] (n : α) :
    ∀ (ns : List α) (acc : List (α × ℚ)),
      dget (ns.foldl (fun d m => dset d m (0 : ℚ)) acc) n
        = if n ∈ ns then some 0 else dget acc n := by
  intro ns
  induction ns with
  | nil => intro acc; simp
  | cons m t ih =>
    intro acc
    simp only [List.foldl_cons]
    rw [ih]
    by_cases hm : n = m
    · subst hm
      by_cases hmt : n ∈ t
      · rw [if_pos hmt, if_pos (List.mem_cons_self _ _)]
      · rw [if_neg hmt, if_pos (List.mem_cons_self _ _), dget_dset_self]
    · by_cases hmt : n ∈ t
      · rw [if_pos hmt, if_pos (List.mem_cons_of_mem _ hmt)]
      · rw [if_neg hmt, if_neg (by simp [List.mem_cons, hm, hmt]),
          dget_dset_ne _ _ _ _ hm]

theorem zeros_fold_mem {α : Type} [DecidableEq α] :
    ∀ (ns : List α) (acc : List (α × ℚ)), (∀ p ∈ acc, p.2 = 0) →
      ∀ p ∈ ns.foldl (fun d m => dset d m (0 : ℚ)) acc, p.2 = 0 := by
  intro ns
  induction ns with
  | nil => intro acc hacc; exact hacc
  | cons m t ih =>
    intro acc hacc
    simp only [List.foldl_cons]
    refine ih _ ?_
    intro p hp
    rcases mem_dset _ _ _ _ hp with rfl | hp'
    · rfl
    · exact hacc p hp'

theorem upd_fold_dget {α : Type} [DecidableEq α] (ne : List (α × ℚ)) (N : ℚ) (n : α) :
    ∀ (cn : List α) (d : List (α × ℚ)),
      dget (cn.foldl (fun d m =>
        match dget ne m with
        | some v => dset d m (v / N)
        | none => d) d) n
      = if n ∈ cn ∧ (dget ne n).isSome = true
        then some ((dget ne n).getD 0 / N) else dget d n := by
  intro cn
  induction cn with
  | nil => intro d; simp
  | cons m t ih =>
    intro d
    simp only [List.foldl_cons]
    rw [ih]
    by_cases hm : n = m
    · subst hm
      cases hne : dget ne n with
      | none =>
        simp only [hne]
        by_cases hmt : n ∈ t <;> simp [hmt]
      | some v =>
        simp only [hne]
        by_cases hmt : n ∈ t
        · simp [hmt, List.mem_cons]
        · simp [hmt, List.mem_cons, dget_dset_self]
    · have hbr : dget (match dget ne m with
          | some v => dset d m (v / N)
          | none => d) n = dget d n := by
        cases hma : dget ne m with
        | none => rfl
        | some v => exact dget_dset_ne _ _ _ _ hm
      rw [hbr]
      by_cases hc : n ∈ t ∧ (dget ne n).isSome = true
      · rw [if_pos hc, if_pos ⟨List.mem_cons_of_mem _ hc.1, hc.2⟩]
      · rw [if_neg hc, if_neg (by
          intro hc'
          exact hc ⟨by
            rcases List.mem_cons.mp hc'.1 with h1 | h1
            · exact absurd h1 hm
            · exact h1, hc'.2⟩)]

theorem dget_le_sum {α : Type} [DecidableEq α] (l : List (α × ℚ))
    (hpos : ∀ p ∈ l, 0 ≤ p.2) (k : α) (v : ℚ) (h : dget l k = some v) :
    v ≤ (l.map (·.2)).sum := by
  have hm : (k, v) ∈ l := dget_mem _ _ _ h
  have hv : v ∈ l.map (·.2) := List.mem_map.mpr ⟨(k, v), hm, rfl⟩
  refine List.single_le_sum ?_ v hv
  intro x hx
  obtain ⟨p, hp, rfl⟩ := List.mem_map.mp hx
  exact hpos p hp

theorem dict_sum_eq_one {α : Type} [DecidableEq α] (A : α) :
    ∀ (d : List (α × ℚ)), (d.map (·.1)).Nodup → dget d A = some 1 →
      (∀ p ∈ d, p.1 = A ∨ p.2 = 0) → (d.map (·.2)).sum = 1 := by
  intro d
  induction d with
  | nil => intro _ h; simp [dget] at h
  | cons p t ih =>
    intro hnd hA hz
    simp only [List.map_cons, List.nodup_cons] at hnd
    by_cases hp : p.1 = A
    · have hp2 : p.2 = 1 := by
        rw [dget_cons, if_pos hp] at hA
        exact Option.some_inj.mp hA
      have ht : ∀ q ∈ t, q.2 = 0 := by
        intro q hq
        rcases hz q (List.mem_cons_of_mem _ hq) with h1 | h2
        · exact absurd (h1 ▸ List.mem_map.mpr ⟨q, hq, rfl⟩) (hp ▸ hnd.1)
        · exact h2
      have hts : (t.map (·.2)).sum = 0 := by
        refine List.sum_eq_zero ?_
        intro x hx
        obtain ⟨q, hq, rfl⟩ := List.mem_map.mp hx
        exact ht q hq
      simp [hp2, hts]
    · have hp2 : p.2 = 0 := by
        rcases hz p (List.mem_cons_self _ _) with h1 | h2
        · exact absurd h1 hp
        · exact h2
      have hA' : dget t A = some 1 := by
        rw [dget_cons, if_neg hp] at hA
        exact hA
      have ih' := ih hnd.2 hA' (fun q hq => hz q (List.mem_cons_of_mem _ hq))
      simp [hp2, ih']

theorem zeros_fold_nodup {α : Type} [DecidableEq α] :
    ∀ (ns : List α) (acc : List (α × ℚ)), (acc.map (·.1)).Nodup →
      ((ns.foldl (fun d m => dset d m (0 : ℚ)) acc).map (·.1)).Nodup := by
  intro ns
  induction ns with
  | nil => intro acc hacc; exact hacc
  | cons m t ih =>
    intro acc hacc
    simp only [List.foldl_cons]
    exact ih _ (nodup_keys_dset _ _ _ hacc)

theorem mem_collection_nodes {α : Type} [DecidableEq α] (C : Collection α) (k : ℤ)
    (g : Graph α) (hg : (k, g) ∈ C.graphs) (n : α) (hn : n ∈ g.nodes) : n ∈ C.nodes := by
  unfold Collection.nodes
  rw [List.mem_dedup, List.mem_flatten]
  exact ⟨g.nodes, List.mem_map.mpr ⟨(k, g), hg, rfl⟩, hn⟩

theorem upd_fold_mem {α : Type} [DecidableEq α] (ne : List (α × ℚ)) (N : ℚ)
    (hne : ∀ (k : α) (v : ℚ), dget ne k = some v → 0 ≤ v ∧ v ≤ N) (hN : 0 < N) :
    ∀ (cn : List α) (d : List (α × ℚ)), (∀ p ∈ d, 0 ≤ p.2 ∧ p.2 ≤ 1) →
      ∀ p ∈ cn.foldl (fun d m =>
        match dget ne m with
        | some v => dset d m (v / N)
        | none => d) d, 0 ≤ p.2 ∧ p.2 ≤ 1 := by
  intro cn
  induction cn with
  | nil => intro d hd; exact hd
  | cons m t ih =>
    intro d hd
    simp only [List.foldl_cons]
    refine ih _ ?_
    cases hma : dget ne m with
    | none => simpa [hma] using hd
    | some v =>
      simp only [hma]
      intro p hp
      rcases mem_dset _ _ _ _ hp with rfl | hp'
      · refine ⟨div_nonneg (hne m v hma).1 hN.le, ?_⟩
        exact (div_le_one hN).mpr (hne m v hma).2
      · exact hd p hp'

theorem stepProbs_mem_bounds {α : Type} [DecidableEq α] (cn : List α) (gprev g : Graph α) :
    ∀ p ∈ stepProbs cn gprev g, 0 ≤ p.2 ∧ p.2 ≤ 1 := by
  intro p hp
  unfold stepProbs at hp
  have hbase : ∀ q ∈ gprev.nodes.foldl (fun d n => dset d n (0 : ℚ)) [], 0 ≤ q.2 ∧ q.2 ≤ 1 := by
    intro q hq
    have := zeros_fold_mem gprev.nodes [] (by simp) q hq
    rw [this]
    exact ⟨le_refl 0, zero_le_one⟩
  by_cases hN : 0 < ((newEdgesOf gprev g).map (·.2)).sum
  · rw [if_pos hN] at hp
    refine upd_fold_mem (newEdgesOf gprev g) _ ?_ hN cn _ hbase p hp
    intro k v hv
    exact ⟨by
      rcases (dget_mem _ _ _ hv) with hm
      exact newEdges_mem_nonneg gprev g (k, v) hm,
      dget_le_sum _ (newEdges_mem_nonneg gprev g) k v hv⟩
  · rw [if_neg hN] at hp
    exact hbase p hp

theorem stepProbs_absent {α : Type} [DecidableEq α] (cn : List α) (gprev g : Graph α)
    (n : α) (h : n ∉ gprev.nodes) : dget (stepProbs cn gprev g) n = none := by
  unfold stepProbs
  have hbase : dget (gprev.nodes.foldl (fun d m => dset d m (0 : ℚ)) []) n = none := by
    rw [zeros_fold_dget, if_neg h, dget_nil]
  have hnone : dget (newEdgesOf gprev g) n = none := by
    rw [newEdges_dget]
    by_cases hmem : n ∈ g.nodes
    · rw [if_pos hmem, (dget_eq_none_iff gprev.adj n).mpr h]
      rfl
    · rw [if_neg hmem]
  by_cases hN : 0 < ((newEdgesOf gprev g).map (·.2)).sum
  · rw [if_pos hN, upd_fold_dget]
    simp [hnone, hbase]
  · rw [if_neg hN]
    exact hbase

theorem apLoop_bounds {α : Type} [DecidableEq α] (cn : List α) :
    ∀ (rest : List (ℤ × Graph α)) (prev : Option (ℤ × Graph α))
      (probs : List (ℤ × List (α × ℚ))) (done : List (ℤ × Graph α)),
      (∀ pr ∈ probs, ∀ e ∈ pr.2, 0 ≤ e.2 ∧ e.2 ≤ 1) →
      ∀ pr ∈ (apLoop cn rest prev probs done).1, ∀ e ∈ pr.2, 0 ≤ e.2 ∧ e.2 ≤ 1 := by
  intro rest
  induction rest with
  | nil =>
    intro prev probs done hp
    simpa [apLoop] using hp
  | cons kg t ih =>
    intro prev probs done hp
    obtain ⟨k, g⟩ := kg
    cases prev with
    | none =>
      simp only [apLoop]
      exact ih _ _ _ hp
    | some kg_ =>
      obtain ⟨k_, g_⟩ := kg_
      simp only [apLoop]
      refine ih _ _ _ ?_
      intro pr hpr
      rcases mem_dset _ _ _ _ hpr with rfl | hpr'
      · exact fun e he => stepProbs_mem_bounds cn g_ g e he
      · exact hp pr hpr'

/-- C10: every probability value in the mapping returned by the
attachment-probability calculator lies in the closed interval [0, 1]:
the division is guarded by N > 0, each per-node new-edge count is
nonnegative and at most N, and all defaulted values are exactly 0. -/
theorem attachment_probability_bounds {α : Type} [DecidableEq α] (C : Collection α)
    (p : List (ℤ × List (α × ℚ)) × Collection α)
    (h : attachment_probability C = .ok p) :
    ∀ pr ∈ p.1, ∀ e ∈ pr.2, 0 ≤ e.2 ∧ e.2 ≤ 1 := by
  have hp1 : p.1 = (apLoop C.nodes C.graphs none [] []).1 := by
    simp only [attachment_probability] at h
    cases hL : (C.graphs.map (·.1)).getLast? with
    | none =>
      simp only [hL] at h
      exact Except.noConfusion h
    | some key =>
      simp only [hL] at h
      cases hg : dget (apLoop C.nodes C.graphs none [] []).2 key with
      | none =>
        simp only [hg] at h
        exact Except.noConfusion h
      | some glast =>
        simp only [hg] at h
        exact (congrArg Prod.fst (Except.ok.inj h)).symm
  rw [hp1]
  exact apLoop_bounds C.nodes C.graphs none [] [] (by simp)

/-- Witness for C10's theorem on a concrete two-slice collection. -/
theorem attachment_probability_bounds_witness :
    ∃ p, attachment_probability exQC = .ok p
      ∧ ∀ pr ∈ p.1, ∀ e ∈ pr.2, 0 ≤ e.2 ∧ e.2 ≤ 1 := by
  refine ⟨_, rfl, ?_⟩
  exact attachment_probability_bounds exQC _ rfl

/-- C6: the asymmetric new-edge accounting of every step: a node of the
current slice present in the previous slice with at least one neighbor
gets count `|current neighbors \ previous neighbors|`; one present with
zero neighbors gets exactly 0 even if it gained neighbors; one entirely
absent from the previous slice gets no count, and it does not appear in
that step's probability mapping. -/
theorem attachment_new_edge_accounting {α : Type} [DecidableEq α] (gprev g : Graph α)
    (cnodes : List α) (n : α) :
    dget (newEdgesOf gprev g) n
      = (if n ∈ g.nodes then
          (dget gprev.adj n).map (fun old =>
            if old.dedup = [] then (0 : ℚ)
            else ((((dget g.adj n).getD []).dedup.filter
              (fun x => x ∉ old.dedup)).length : ℚ))
        else none)
    ∧ (n ∈ gprev.nodes ∨ dget (stepProbs cnodes gprev g) n = none) := by
  constructor
  · rw [newEdges_dget]
    by_cases hmem : n ∈ g.nodes
    · rw [if_pos hmem, if_pos hmem]
      cases dget gprev.adj n with
      | none => rfl
      | some old =>
        simp only [Option.map_some']
        congr 1
        rw [newEdgeCount]
        by_cases hd : old.dedup = []
        · rw [if_neg (by simp [hd]), if_pos hd]
        · rw [if_pos (List.length_pos.mpr hd), if_neg hd]
    · rw [if_neg hmem, if_neg hmem]
  · by_cases hmem : n ∈ gprev.nodes
    · exact Or.inl hmem
    · exact Or.inr (stepProbs_absent cnodes gprev g n hmem)

/-- C5 (amended): in a two-slice collection where the second slice adds
exactly one new edge at node A — A present in slice 1 with at least one
neighbor — and no other node that was present in slice 1 gains a new
neighbor (e.g. because the new edge's other endpoint is a brand-new
node), the returned mapping assigns probability 1.0 to A under the
first slice's index and 0.0 to every other node present in slice 1, and
the final slice's graph receives an `attachment_probability` node
attribute that is zero for all of its nodes. -/
theorem attachment_probability_single_new_edge {α : Type} [DecidableEq α]
    (C : Collection α) (k1 k2 : ℤ) (G1 G2 : Graph α) (A : α) (nbA : List α)
    (h1 : C.graphs = [(k1, G1), (k2, G2)])
    (h2 : k1 ≠ k2)
    (h3 : dget G1.adj A = some nbA)
    (h4 : nbA.dedup ≠ [])
    (h5 : A ∈ G2.nodes)
    (h6 : (((dget G2.adj A).getD []).dedup.filter (fun x => x ∉ nbA.dedup)).length = 1)
    (h7 : ∀ n ∈ G2.nodes, n ≠ A → (dget G1.adj n).isSome = true →
      ((dget G2.adj n).getD []).dedup.filter
        (fun x => x ∉ ((dget G1.adj n).getD []).dedup) = [])
    (h8 : ∀ n ∈ G2.nodes, (dget G2.nodeAttrs n).isSome = true) :
    ∃ p, attachment_probability C = .ok p
      ∧ (∃ pk, dget p.1 k1 = some pk
          ∧ dget pk A = some 1
          ∧ ∀ n ∈ G1.nodes, n ≠ A → dget pk n = some 0)
      ∧ (∃ g2', dget p.2.graphs k2 = some g2'
          ∧ ∀ n ∈ G2.nodes, g2'.attrOf n "attachment_probability" = some (Val.num 0)) := by
  have hAne : dget (newEdgesOf G1 G2) A = some 1 := by
    rw [newEdges_dget, if_pos h5, h3]
    simp only [Option.map_some']
    rw [newEdgeCount, if_pos (List.length_pos.mpr h4), h6, Nat.cast_one]
  have hother : ∀ p ∈ newEdgesOf G1 G2, p.1 = A ∨ p.2 = 0 := by
    intro p hp
    by_cases hpA : p.1 = A
    · exact Or.inl hpA
    · right
      have hdg : dget (newEdgesOf G1 G2) p.1 = some p.2 :=
        mem_dget_nodup _ _ _ (newEdges_nodup_keys G1 G2) hp
      rw [newEdges_dget] at hdg
      by_cases hmem : p.1 ∈ G2.nodes
      · rw [if_pos hmem] at hdg
        cases ha : dget G1.adj p.1 with
        | none =>
          rw [ha] at hdg
          simp at hdg
        | some old =>
          rw [ha] at hdg
          simp only [Option.map_some'] at hdg
          have hv : p.2 = newEdgeCount G2 p.1 old := (Option.some_inj.mp hdg).symm
          rw [hv, newEdgeCount]
          by_cases hl : 0 < old.dedup.length
          · rw [if_pos hl]
            have h7' := h7 p.1 hmem hpA (by rw [ha]; rfl)
            rw [ha] at h7'
            simp only [Option.getD_some] at h7'
            rw [h7']
            simp
          · rw [if_neg hl]
      · rw [if_neg hmem] at hdg
        simp at hdg
  have hsum : ((newEdgesOf G1 G2).map (·.2)).sum = 1 :=
    dict_sum_eq_one A _ (newEdges_nodup_keys G1 G2) hAne hother
  have hmem1 : (k1, G1) ∈ C.graphs := by
    rw [h1]
    exact List.mem_cons_self _ _
  have hmem2 : (k2, G2) ∈ C.graphs := by
    rw [h1]
    exact List.mem_cons_of_mem _ (List.mem_cons_self _ _)
  have hpkA : dget (stepProbs C.nodes G1 G2) A = some 1 := by
    simp only [stepProbs]
    rw [hsum, if_pos (by norm_num : (0 : ℚ) < 1), upd_fold_dget]
    rw [if_pos ⟨mem_collection_nodes C k2 G2 hmem2 A h5, by rw [hAne]; rfl⟩, hAne]
    norm_num
  have hpk0 : ∀ n ∈ G1.nodes, n ≠ A → dget (stepProbs C.nodes G1 G2) n = some 0 := by
    intro n hn hne
    simp only [stepProbs]
    rw [hsum, if_pos (by norm_num : (0 : ℚ) < 1), upd_fold_dget]
    by_cases hc : n ∈ C.nodes ∧ (dget (newEdgesOf G1 G2) n).isSome = true
    · rw [if_pos hc]
      obtain ⟨v, hv⟩ := Option.isSome_iff_exists.mp hc.2
      have hv0 : v = 0 := by
        rcases hother (n, v) (dget_mem _ _ _ hv) with h | h
        · exact absurd h hne
        · exact h
      rw [hv, hv0]
      norm_num
    · rw [if_neg hc, zeros_fold_dget, if_pos hn]
  have hloop : apLoop C.nodes [(k1, G1), (k2, G2)] none [] []
      = ([(k1, stepProbs C.nodes G1 G2)],
         [(k1, set_node_attributes G1 "attachment_probability" (stepProbs C.nodes G1 G2)),
          (k2, G2)]) := by
    simp [apLoop, dset]
  have hfinal : attachment_probability C
      = .ok ([(k1, stepProbs C.nodes G1 G2)],
             ⟨[(k1, set_node_attributes G1 "attachment_probability"
                  (stepProbs C.nodes G1 G2)),
               (k2, set_node_attributes G2 "attachment_probability"
                  (G2.nodes.foldl (fun d n => dset d n (0 : ℚ)) []))]⟩) := by
    simp only [attachment_probability, h1, hloop]
    simp [List.getLast?, dget_cons, dget_nil, h2, dset]
  refine ⟨_, hfinal, ⟨stepProbs C.nodes G1 G2, by simp [dget], hpkA, hpk0⟩,
    ⟨set_node_attributes G2 "attachment_probability"
      (G2.nodes.foldl (fun d n => dset d n (0 : ℚ)) []), ?_, ?_⟩⟩
  · show dget [(k1, _), (k2, _)] k2 = _
    rw [dget_cons_ne _ _ _ h2, dget_cons]
    simp
  · intro n hn
    show (dget (set_node_attributes G2 "attachment_probability" _).nodeAttrs n).bind
        (fun d => dget d "attachment_probability") = _
    unfold set_node_attributes
    refine setattr_fold_write "attachment_probability" _ G2.nodeAttrs n 0 ?_ ?_ (h8 n hn)
    · exact zeros_fold_nodup G2.nodes [] (by simp)
    · rw [zeros_fold_dget, if_pos hn]

/-- Witness for C5's amended theorem: slice 2 attaches node 0 to the
brand-new node 3; node 0's attachment probability under slice 1's index
is 1.0 and every other slice-1 node gets 0.0. -/
theorem attachment_probability_single_new_edge_witness :
    ∃ p, attachment_probability exQC = .ok p
      ∧ (∃ pk, dget p.1 1 = some pk
          ∧ dget pk 0 = some 1
          ∧ ∀ n ∈ exP1.nodes, n ≠ 0 → dget pk n = some 0)
      ∧ (∃ g2', dget p.2.graphs 2 = some g2'
          ∧ ∀ n ∈ exQ2.nodes, g2'.attrOf n "attachment_probability" = some (Val.num 0)) :=
  attachment_probability_single_new_edge exQC 1 2 exP1 exQ2 0 [2]
    rfl (by decide) rfl (by decide) (by decide) (by decide) (by decide) (by decide)

/-- Counterexample to C5 as stated: in `exPC` slice 2 adds exactly one
new edge (0 – 1) at node 0, node 0 being present in slice 1 with one
neighbor, yet node 0's probability under slice 1's index is 1/2, not
1.0 (the other endpoint, node 1, also had a previous neighbor and
absorbs half of the attachment probability). -/
theorem attachment_probability_counterexample :
    ∃ p, attachment_probability exPC = .ok p
      ∧ (dget p.1 1).bind (fun pk => dget pk 0) = some (1 / 2)
      ∧ ((1 : ℚ) / 2) ≠ 1 := by
  have hne : newEdgesOf exP1 exP2
      = [(0, ((1 : ℕ) : ℚ)), (1, ((1 : ℕ) : ℚ)), (2, ((0 : ℕ) : ℚ))] := rfl
  have hsum : ((newEdgesOf exP1 exP2).map (·.2)).sum = 2 := by
    rw [hne]
    norm_num
  have hpk : dget (stepProbs exPC.nodes exP1 exP2) 0 = some (1 / 2) := by
    simp only [stepProbs]
    rw [hsum, if_pos (by norm_num : (0 : ℚ) < 2), upd_fold_dget]
    rw [if_pos ⟨by decide, by rw [hne]; rfl⟩, hne]
    show some (((1 : ℕ) : ℚ) / 2) = some (1 / 2)
    norm_num
  have hloop : apLoop exPC.nodes exPC.graphs none [] []
      = ([(1, stepProbs exPC.nodes exP1 exP2)],
         [(1, set_node_attributes exP1 "attachment_probability"
              (stepProbs exPC.nodes exP1 exP2)),
          (2, exP2)]) := by
    show apLoop exPC.nodes [(1, exP1), (2, exP2)] none [] [] = _
    simp [apLoop, dset]
  refine ⟨_, rfl, ?_, by norm_num⟩
  rw [hloop]
  simpa [dget] using hpk

end Tethne
